import Mathlib

/-!
Verification of the ZeroToken diff engine and step-approval workflow.

Shallow embedding of the relevant Python sources:
  ai_build/local_patcher.py  (_extract_diff, _sanitize_diff)
  ai_build/git_ops.py        (_apply_patch_python)
  ai_build/reviewer.py       (_parse_review)
  ai_build/storage.py        (update_step_status)
  ai_build/server.py         (apply_patch_route, reset_step, plan_local,
                              patch_local, refine_patch_route, run_all)

Strings are modelled by Lean String; the character-level work mirrors the
Python semantics of splitlines, strip, slicing with negative indices, and
the concrete regular expressions used by the code (each regex is small and
is translated into an equivalent deterministic character scanner).
-/

namespace ZeroToken

/-! ## Python string primitives -/

/-- The characters Python str.splitlines treats as line boundaries,
    apart from the carriage return (handled separately to pair CR LF). -/
def isBoundaryChar (c : Char) : Bool :=
  c = '\n' || c = Char.ofNat 0x0b || c = Char.ofNat 0x0c ||
  c = Char.ofNat 0x1c || c = Char.ofNat 0x1d || c = Char.ofNat 0x1e ||
  c = Char.ofNat 0x85 || c = Char.ofNat 0x2028 || c = Char.ofNat 0x2029

def isCR (c : Char) : Bool := c = Char.ofNat 0x0d

/-- Core of Python str.splitlines on a character list.
    `keep` keeps the boundary characters at the end of each line.
    `acc` is the current (reversed) line. -/
def splitlinesCore (keep : Bool) : List Char → List Char → List (List Char)
  | [], acc => if acc = [] then [] else [acc.reverse]
  | [c], acc =>
    if isCR c then [acc.reverse ++ (if keep then [c] else [])]
    else if isBoundaryChar c then
      (acc.reverse ++ (if keep then [c] else [])) :: splitlinesCore keep [] []
    else splitlinesCore keep [] (c :: acc)
  | c :: d :: cs, acc =>
    if isCR c then
      if d = '\n' then
        (acc.reverse ++ (if keep then [c, d] else [])) :: splitlinesCore keep cs []
      else
        (acc.reverse ++ (if keep then [c] else [])) :: splitlinesCore keep (d :: cs) []
    else if isBoundaryChar c then
      (acc.reverse ++ (if keep then [c] else [])) :: splitlinesCore keep (d :: cs) []
    else
      splitlinesCore keep (d :: cs) (c :: acc)

/-- Python str.splitlines() (no keepends). -/
def pySplitlines (s : String) : List String :=
  (splitlinesCore false s.data []).map String.mk

/-- Python str.splitlines(keepends=True). -/
def pySplitlinesKeep (s : String) : List String :=
  (splitlinesCore true s.data []).map String.mk

/-- Split a character list at newline characters only, keeping the newline
    at the end of each piece.  This is the line structure a Python regex in
    MULTILINE mode sees: the anchor matches at the start and after NL. -/
def splitNLCore : List Char → List Char → List (List Char)
  | [], acc => if acc = [] then [] else [acc.reverse]
  | c :: cs, acc =>
    if c = '\n' then (acc.reverse ++ [c]) :: splitNLCore cs []
    else splitNLCore cs (c :: acc)

/-- Newline-terminated segments of a string (regex line structure). -/
def splitNLKeep (s : String) : List String :=
  (splitNLCore s.data []).map String.mk

/-- Newline-separated pieces without the newline (Python-regex lines). -/
def splitNLDrop (s : String) : List String :=
  (splitNLKeep s).map fun l =>
    String.mk (l.data.filter (fun c => decide (c ≠ '\n')))

/-- Characters stripped by Python str.strip() with no argument
    (the ASCII whitespace set, which covers all inputs arising here). -/
def isPyWhite (c : Char) : Bool :=
  c = ' ' || c = '\t' || c = '\n' || isCR c ||
  c = Char.ofNat 0x0b || c = Char.ofNat 0x0c

/-- Python str.strip(). -/
def pyStrip (s : String) : String :=
  String.mk (((s.data.dropWhile isPyWhite).reverse.dropWhile isPyWhite).reverse)

/-- Python str.lstrip(). -/
def pyLstrip (s : String) : String :=
  String.mk (s.data.dropWhile isPyWhite)

/-- Python str.lstrip(chars): drop leading characters from the given set. -/
def pyLstripSet (set : List Char) (s : String) : String :=
  String.mk (s.data.dropWhile (fun c => set.contains c))

/-- Python str.startswith. -/
def pyStarts (s pre : String) : Bool :=
  pre.data.isPrefixOf s.data

/-- Python str.endswith. -/
def pyEnds (s suf : String) : Bool :=
  suf.data.reverse.isPrefixOf s.data.reverse

/-- Python membership test `sub in s` for a single character. -/
def pyHasChar (s : String) (c : Char) : Bool :=
  s.data.contains c

/-- Python "\n".join. -/
def joinNL : List String → String
  | [] => ""
  | [l] => l
  | l :: ls => l ++ "\n" ++ joinNL ls

/-- Python "".join. -/
def joinAll (ls : List String) : String :=
  String.mk (ls.map String.data).flatten

/-- Replace CR LF by LF and then CR by LF, as in
    text.replace("\r\n", "\n").replace("\r", "\n"). -/
def normalizeCR (s : String) : String :=
  String.mk (go s.data)
where
  go : List Char → List Char
    | [] => []
    | [c] => if isCR c then ['\n'] else [c]
    | c :: d :: cs =>
      if isCR c then
        (if d = '\n' then '\n' :: go cs else '\n' :: go (d :: cs))
      else c :: go (d :: cs)

/-- Python str.lower restricted to ASCII (sufficient for the verdict and
    keyword scans, which compare against ASCII words). -/
def pyLowerChar (c : Char) : Char :=
  if 'A' ≤ c ∧ c ≤ 'Z' then Char.ofNat (c.toNat + 32) else c

def pyLower (s : String) : String :=
  String.mk (s.data.map pyLowerChar)

/-! ## Decimal digits -/

def isDig (c : Char) : Bool := decide (48 ≤ c.toNat) && decide (c.toNat ≤ 57)

def digitChar (n : Nat) : Char :=
  match n with
  | 0 => '0' | 1 => '1' | 2 => '2' | 3 => '3' | 4 => '4'
  | 5 => '5' | 6 => '6' | 7 => '7' | 8 => '8' | _ => '9'

/-- Fuel-driven digit expansion (structural, so the kernel can evaluate). -/
def natDigitsGo : Nat → Nat → List Char
  | 0, n => [digitChar n]
  | fuel + 1, n =>
    if n < 10 then [digitChar n]
    else natDigitsGo fuel (n / 10) ++ [digitChar (n % 10)]

/-- Decimal digit characters of a natural number, most significant first. -/
def natDigits (n : Nat) : List Char := natDigitsGo n n

/-- Value of a list of decimal digit characters (Python int()). -/
def digitsToNat (ds : List Char) : Nat :=
  ds.foldl (fun acc c => 10 * acc + (c.toNat - 48)) 0

theorem isDig_digitChar (n : Nat) : isDig (digitChar n) = true := by
  unfold digitChar
  split <;> decide

theorem toNat_digitChar (n : Nat) (h : n < 10) : (digitChar n).toNat = 48 + n := by
  interval_cases n <;> decide

theorem natDigitsGo_fuel (n : Nat) : ∀ f1 f2, n ≤ f1 → n ≤ f2 →
    natDigitsGo f1 n = natDigitsGo f2 n := by
  induction n using Nat.strong_induction_on with
  | _ n ih =>
    intro f1 f2 h1 h2
    by_cases h : n < 10
    · cases f1 <;> cases f2 <;> simp [natDigitsGo, h]
    · have hdiv : n / 10 < n := Nat.div_lt_self (by omega) (by omega)
      cases f1 with
      | zero => omega
      | succ f1a =>
        cases f2 with
        | zero => omega
        | succ f2a =>
          simp only [natDigitsGo, if_neg h]
          rw [ih (n / 10) hdiv f1a f2a (by omega) (by omega)]

theorem natDigits_eq (n : Nat) :
    natDigits n = if n < 10 then [digitChar n]
      else natDigits (n / 10) ++ [digitChar (n % 10)] := by
  by_cases h : n < 10
  · cases hn : n with
    | zero => simp [natDigits, natDigitsGo, h]
    | succ m => simp [natDigits, natDigitsGo, hn ▸ h]
  · have h10 : 10 ≤ n := le_of_not_lt h
    have hdiv : n / 10 < n := Nat.div_lt_self (by omega) (by omega)
    cases hn : n with
    | zero => omega
    | succ m =>
      subst hn
      simp only [natDigits, natDigitsGo, if_neg h]
      have hd : (m + 1) / 10 < m + 1 := Nat.div_lt_self (by omega) (by omega)
      rw [natDigitsGo_fuel ((m + 1) / 10) m ((m + 1) / 10) (by omega) (le_refl _)]

theorem natDigits_ne_nil (n : Nat) : natDigits n ≠ [] := by
  rw [natDigits_eq]
  split
  · simp
  · simp

theorem natDigits_all_digits (n : Nat) : ∀ c ∈ natDigits n, isDig c = true := by
  induction n using Nat.strong_induction_on with
  | _ n ih =>
    rw [natDigits_eq]
    split
    · intro c hc
      simp only [List.mem_singleton] at hc
      subst hc
      exact isDig_digitChar n
    · intro c hc
      simp only [List.mem_append, List.mem_singleton] at hc
      rcases hc with hc | hc
      · exact ih (n / 10) (Nat.div_lt_self (by omega) (by omega)) c hc
      · subst hc
        exact isDig_digitChar (n % 10)

theorem digitsToNat_append (a b : List Char) :
    digitsToNat (a ++ b) =
      b.foldl (fun acc c => 10 * acc + (c.toNat - 48)) (digitsToNat a) := by
  simp [digitsToNat, List.foldl_append]

theorem digitsToNat_natDigits (n : Nat) : digitsToNat (natDigits n) = n := by
  induction n using Nat.strong_induction_on with
  | _ n ih =>
    rw [natDigits_eq]
    split
    · rename_i h
      simp only [digitsToNat, List.foldl_cons, List.foldl_nil]
      rw [toNat_digitChar n h]
      omega
    · rename_i h
      rw [digitsToNat_append]
      have ihd := ih (n / 10) (Nat.div_lt_self (by omega) (by omega))
      simp only [List.foldl_cons, List.foldl_nil]
      rw [ihd, toNat_digitChar (n % 10) (Nat.mod_lt _ (by omega))]
      omega

/-! ## local_patcher._sanitize_diff -/

/-- A line at which a hunk body ends: the next hunk header or file header
    (`lines[j].startswith("@@") / ("--- ") / ("diff ")`). -/
def isHunkBodyEnd (l : String) : Bool :=
  pyStarts l "@@" || pyStarts l "--- " || pyStarts l "diff "

/-- orig_count = sum(1 for l in hunk_body if l.startswith(" ") or l.startswith("-")) -/
def origCount (body : List String) : Nat :=
  (body.filter (fun l => pyStarts l " " || pyStarts l "-")).length

/-- new_count = sum(1 for l in hunk_body if l.startswith(" ") or l.startswith("+")) -/
def newCount (body : List String) : Nat :=
  (body.filter (fun l => pyStarts l " " || pyStarts l "+")).length

/-- The optional group (?:,\d+)? of the hunk-header regex.  When the next
    character is a comma the group must consume it together with a nonempty
    digit run (skipping the group cannot succeed, since the following
    literal of the pattern is a space). -/
def parseCommaDigits : List Char → Option (Option (List Char) × List Char)
  | ',' :: r =>
    let d := r.takeWhile isDig
    if d = [] then none else some (some d, r.dropWhile isDig)
  | r => some (none, r)

/-- Captured pieces of a hunk header
    `@@ -(\d+)(?:,(\d+))? \+(\d+)(?:,(\d+))? @@<tail>`. -/
structure HunkHdr where
  a : List Char
  ac : Option (List Char)
  b : List Char
  bc : Option (List Char)
  tail : List Char
  deriving Repr, DecidableEq

/-- Deterministic equivalent of
    re.match(r"@@ -(\d+)(?:,\d+)? \+(\d+)(?:,\d+)? @@(.*)", line)
    on a line that contains no newline character. -/
def parseNewSide (a : List Char) (ac : Option (List Char)) (r2 : List Char) :
    Option HunkHdr :=
  if r2.takeWhile isDig = [] then none else
  match parseCommaDigits (r2.dropWhile isDig) with
  | none => none
  | some (bc, r3) =>
    match r3 with
    | ' ' :: '@' :: '@' :: t => some ⟨a, ac, r2.takeWhile isDig, bc, t⟩
    | _ => none

def parseAfterDash (r0 : List Char) : Option HunkHdr :=
  if r0.takeWhile isDig = [] then none else
  match parseCommaDigits (r0.dropWhile isDig) with
  | none => none
  | some (ac, r1) =>
    match r1 with
    | ' ' :: '+' :: r2 => parseNewSide (r0.takeWhile isDig) ac r2
    | _ => none

def parseHunkHdr (cs : List Char) : Option HunkHdr :=
  match cs with
  | '@' :: '@' :: ' ' :: '-' :: r0 => parseAfterDash r0
  | _ => none

/-- f-string rebuild of the header with the original starts, the
    recalculated counts and the original tail. -/
def renderHdr (a : List Char) (oc : Nat) (b : List Char) (nc : Nat)
    (t : List Char) : String :=
  String.mk ('@' :: '@' :: ' ' :: '-' ::
    (a ++ ',' :: (natDigits oc ++ ' ' :: '+' ::
      (b ++ ',' :: (natDigits nc ++ ' ' :: '@' :: '@' :: t)))))

/-- The header rewrite applied to one `@@` line with its collected body;
    a header the regex does not match is passed through unchanged. -/
def rewriteHdr (line : String) (body : List String) : String :=
  match parseHunkHdr line.data with
  | some h => renderHdr h.a (origCount body) h.b (newCount body) h.tail
  | none => line

theorem length_dropWhile_le' {α : Type} (p : α → Bool) (l : List α) :
    (l.dropWhile p).length ≤ l.length := by
  induction l with
  | nil => simp [List.dropWhile]
  | cons x xs ih =>
    simp only [List.dropWhile]
    split
    · exact Nat.le_succ_of_le ih
    · exact Nat.le_refl _

/-- Fuel-driven form of the _sanitize_diff while-loop (structural, so the
    kernel can evaluate it). -/
def processLinesGo : Nat → List String → List String
  | _, [] => []
  | 0, l :: ls => l :: ls
  | fuel + 1, l :: ls =>
    if pyStarts l "@@" then
      let body := ls.takeWhile (fun x => !(isHunkBodyEnd x))
      let rest := ls.dropWhile (fun x => !(isHunkBodyEnd x))
      rewriteHdr l body :: (body ++ processLinesGo fuel rest)
    else l :: processLinesGo fuel ls

/-- The while-loop of _sanitize_diff over the splitlines output. -/
def processLines (L : List String) : List String := processLinesGo L.length L

theorem processLinesGo_fuel : ∀ f1 : Nat, ∀ f2 : Nat, ∀ L : List String,
    L.length ≤ f1 → L.length ≤ f2 → processLinesGo f1 L = processLinesGo f2 L := by
  intro f1
  induction f1 with
  | zero =>
    intro f2 L h1 _
    have : L = [] := List.eq_nil_of_length_eq_zero (Nat.le_zero.mp h1)
    subst this
    cases f2 <;> rfl
  | succ f ih =>
    intro f2 L h1 h2
    cases L with
    | nil => cases f2 <;> rfl
    | cons l ls =>
      cases f2 with
      | zero => simp at h2
      | succ g =>
        simp only [processLinesGo]
        by_cases hl : pyStarts l "@@" = true
        · rw [if_pos hl, if_pos hl]
          have hrest : (ls.dropWhile (fun x => !(isHunkBodyEnd x))).length ≤ ls.length :=
            length_dropWhile_le' _ _
          rw [ih g (ls.dropWhile (fun x => !(isHunkBodyEnd x)))
              (by simp at h1; omega) (by simp at h2; omega)]
        · rw [if_neg hl, if_neg hl]
          rw [ih g ls (by simp at h1; omega) (by simp at h2; omega)]

theorem processLines_nil : processLines [] = [] := rfl

theorem processLines_cons (l : String) (ls : List String) :
    processLines (l :: ls) =
      if pyStarts l "@@" then
        rewriteHdr l (ls.takeWhile (fun x => !(isHunkBodyEnd x))) ::
          ((ls.takeWhile (fun x => !(isHunkBodyEnd x))) ++
            processLines (ls.dropWhile (fun x => !(isHunkBodyEnd x))))
      else l :: processLines ls := by
  show processLinesGo (ls.length + 1) (l :: ls) = _
  simp only [processLinesGo]
  by_cases hl : pyStarts l "@@" = true
  · rw [if_pos hl, if_pos hl]
    rw [processLinesGo_fuel ls.length
        (ls.dropWhile (fun x => !(isHunkBodyEnd x))).length
        (ls.dropWhile (fun x => !(isHunkBodyEnd x)))
        (length_dropWhile_le' _ _) (le_refl _)]
    rfl
  · rw [if_neg hl, if_neg hl]
    rfl

/-- ai_build/local_patcher.py _sanitize_diff. -/
def _sanitize_diff (text : String) : String :=
  let t := normalizeCR text
  let out := processLines (pySplitlines t)
  let result := joinNL out
  if pyEnds result "\n" then result else result ++ "\n"

/-! ## local_patcher._extract_diff -/

/-- Python str.rstrip("\n\r"). -/
def rstripNLCR (s : String) : String :=
  String.mk ((s.data.reverse.dropWhile (fun c => c = '\n' || isCR c)).reverse)

/-- The character class \s of the Python regexes used here (ASCII part). -/
def isSpaceRe (c : Char) : Bool := isPyWhite c

/-- re.match(r"^(?:```+\s*)?- a/", stripped): the stripped line opens with
    an optional backtick fence and then the one-dash header hallucination. -/
def matchesRepair (s : String) : Bool :=
  dashPart (fencePart s.data)
where
  fencePart (cs : List Char) : List Char :=
    match cs with
    | c :: _ =>
      if c = Char.ofNat 0x60 then
        (cs.dropWhile (fun d => d = Char.ofNat 0x60)).dropWhile isSpaceRe
      else cs
    | [] => cs
  dashPart (cs : List Char) : Bool :=
    match cs with
    | '-' :: ' ' :: 'a' :: '/' :: _ => true
    | _ => false

/-- re.match(r"^\+\+\+ (?:b/|/dev/null)", stripped). -/
def matchesPlusHdr (s : String) : Bool :=
  pyStarts s "+++ b/" || pyStarts s "+++ /dev/null"

/-- re.sub(r"^(?:```+\s*)?-\s+", "--- ", stripped) on a line already known
    to match the repair pattern (so the sub pattern matches its prefix). -/
def repairSub (s : String) : String :=
  let afterFence :=
    match s.data with
    | c :: _ =>
      if c = Char.ofNat 0x60 then
        (s.data.dropWhile (fun d => d = Char.ofNat 0x60)).dropWhile isSpaceRe
      else s.data
    | [] => s.data
  match afterFence with
  | '-' :: r => String.mk ('-' :: '-' :: '-' :: ' ' :: r.dropWhile isSpaceRe)
  | _ => s

/-- Pair every line with its successor (the i + 1 lookahead of step 1). -/
def withNext : List String → List (String × Option String)
  | [] => []
  | [x] => [(x, none)]
  | x :: y :: r => (x, some y) :: withNext (y :: r)

/-- Step 1 of _extract_diff applied to one line. -/
def repairLine : String × Option String → String
  | (l, nxt) =>
    let stripped := rstripNLCR l
    let nextStripped := match nxt with | some nl => rstripNLCR nl | none => ""
    if matchesRepair stripped && matchesPlusHdr nextStripped then
      repairSub stripped ++ "\n"
    else l

/-- Index bookkeeping of the fence-strip step: the last index j with
    start < j < length whose stripped line equals three backticks,
    defaulting to the length. -/
def lastFenceIdx (il : List String) (start : Nat) : Nat :=
  let fence := String.mk [Char.ofNat 0x60, Char.ofNat 0x60, Char.ofNat 0x60]
  let idxs := (List.range il.length).filter
    (fun j => decide (start < j) && (pyStrip (il.getD j "") = fence))
  match idxs.getLast? with
  | some j => j
  | none => il.length

/-- Step 2 of _extract_diff: strip an outer markdown fence. -/
def stripOuterFence (text : String) : String :=
  let fence := String.mk [Char.ofNat 0x60, Char.ofNat 0x60, Char.ofNat 0x60]
  if pyStarts (pyLstrip text) fence then
    let il := pySplitlines text
    let start := (il.findIdx? (fun l => pyStarts (pyStrip l) fence)).getD 0
    let stop := lastFenceIdx il start
    joinNL ((il.drop (start + 1)).take (stop - (start + 1)))
  else text

/-- The `--- ` header alternatives of step 3. -/
def isSrcHdrLine (l : String) : Bool :=
  let s := rstripNLCR l
  pyStarts s "--- a/" || pyStarts s "--- /dev/null" ||
    (pyStarts s "--- " && pyHasChar s '/')

/-- The `+++ ` header alternatives of step 3. -/
def isDstHdrLine (l : String) : Bool :=
  let s := rstripNLCR l
  pyStarts s "+++ b/" || pyStarts s "+++ /dev/null" ||
    (pyStarts s "+++ " && pyHasChar s '/')

/-- Step 3 of _extract_diff: the first adjacent header pair, returning the
    keepends lines from that pair onward. -/
def findPairTail : List String → Option (List String)
  | [] => none
  | [_] => none
  | l :: next :: rest =>
    if isSrcHdrLine l && isDstHdrLine next then some (l :: next :: rest)
    else findPairTail (next :: rest)

/-- ai_build/local_patcher.py _extract_diff. -/
def _extract_diff (text : String) : Option String :=
  let fixed := joinAll ((withNext (pySplitlinesKeep text)).map repairLine)
  let t2 := stripOuterFence fixed
  (findPairTail (pySplitlinesKeep t2)).map joinAll

/-! ## git_ops._apply_patch_python

The filesystem is a finite map from the relative path written in the patch
to the file content (the wrapper around os.path resolution is modelled as
the identity on relative paths, and text-mode universal-newline reading is
modelled by contents that already use LF). -/

abbrev FS := List (String × String)

def fsGet (fs : FS) (p : String) : Option String := fs.lookup p

def fsSet (fs : FS) (p v : String) : FS :=
  match fs with
  | [] => [(p, v)]
  | (q, w) :: r => if q = p then (p, v) :: r else (q, w) :: fsSet r p v

/-- Python list index, allowing negative indices. -/
def pyGet {α : Type} (l : List α) (i : Int) : Option α :=
  if 0 ≤ i then (if i < l.length then l.get? i.toNat else none)
  else (if 0 ≤ (l.length : Int) + i then l.get? ((l.length : Int) + i).toNat else none)

/-- Python slice endpoint clamping. -/
def pyBound (n : Nat) (i : Int) : Nat :=
  if i < 0 then (if (n : Int) + i < 0 then 0 else ((n : Int) + i).toNat)
  else (if i > n then n else i.toNat)

/-- Python l[a:b]. -/
def pySlice {α : Type} (l : List α) (a b : Int) : List α :=
  let lo := pyBound l.length a
  let hi := pyBound l.length b
  if lo ≥ hi then [] else (l.drop lo).take (hi - lo)

/-- Python l[a:]. -/
def pySliceFrom {α : Type} (l : List α) (a : Int) : List α :=
  l.drop (pyBound l.length a)

/-- re.split(r"(?=^diff --git |\A(?=--- ))", ..., re.M): pieces start at
    every line beginning with "diff --git " (the position-zero lookahead
    only ever contributes an empty piece, which the caller skips). -/
def chunkCore : List String → List String → List (List String)
  | [], cur => [cur.reverse]
  | s :: r, cur =>
    if pyStarts s "diff --git " then cur.reverse :: chunkCore r [s]
    else chunkCore r (s :: cur)

/-- re.search(r"^\+\+\+ (?:b/)?(.+)$", block, re.M): the first line opening
    with "+++ ", with an optional "b/" dropped when at least one character
    follows it (the regex backtracks to keep "b/" when nothing follows). -/
def findPlusPath (block : String) : Option String :=
  go (splitNLDrop block)
where
  lineGroup (l : String) : Option String :=
    if pyStarts l "+++ " then
      let rest := String.mk (l.data.drop 4)
      if pyStarts rest "b/" && rest.data.length > 2 then
        some (String.mk (rest.data.drop 2))
      else if rest.data.length > 0 then some rest
      else none
    else none
  go : List String → Option String
    | [] => none
    | l :: ls => match lineGroup l with
      | some g => some g
      | none => go ls

/-- Header acceptance of the finditer pattern
    `^@@ -(\d+)(?:,(\d+))? \+(\d+)(?:,(\d+))? @@[^\n]*\n`: the core header
    followed by newline-free text and the terminating newline. -/
def parseApplyHdr (seg : String) : Option HunkHdr :=
  match parseHunkHdr seg.data with
  | some h =>
    match h.tail.reverse with
    | '\n' :: rest => if rest.contains '\n' then none else some h
    | _ => none
  | none => none

/-- finditer over the block: each matching header line opens a hunk whose
    body runs to the next line starting with "@@" (the lazy group with the
    (?=^@@|\Z) lookahead); a "@@" line that fails the header pattern is
    skipped.  Yields (int(group(1)), group(5).splitlines(keepends=True)). -/
def findApplyHunksGo : Nat → List String → List (Nat × List String)
  | _, [] => []
  | 0, _ :: _ => []
  | fuel + 1, s :: rest =>
    match parseApplyHdr s with
    | some h =>
      let body := rest.takeWhile (fun t => !(pyStarts t "@@"))
      let rest2 := rest.dropWhile (fun t => !(pyStarts t "@@"))
      (digitsToNat h.a, pySplitlinesKeep (joinAll body)) :: findApplyHunksGo fuel rest2
    | none => findApplyHunksGo fuel rest

def findApplyHunks (L : List String) : List (Nat × List String) :=
  findApplyHunksGo L.length L

theorem findApplyHunksGo_fuel : ∀ f1 : Nat, ∀ f2 : Nat, ∀ L : List String,
    L.length ≤ f1 → L.length ≤ f2 →
    findApplyHunksGo f1 L = findApplyHunksGo f2 L := by
  intro f1
  induction f1 with
  | zero =>
    intro f2 L h1 _
    have : L = [] := List.eq_nil_of_length_eq_zero (Nat.le_zero.mp h1)
    subst this
    cases f2 <;> rfl
  | succ f ih =>
    intro f2 L h1 h2
    cases L with
    | nil => cases f2 <;> rfl
    | cons s rest =>
      cases f2 with
      | zero => simp at h2
      | succ g =>
        simp only [findApplyHunksGo]
        cases parseApplyHdr s with
        | some h =>
          simp only
          have hrest : (rest.dropWhile (fun t => !(pyStarts t "@@"))).length ≤ rest.length :=
            length_dropWhile_le' _ _
          rw [ih g (rest.dropWhile (fun t => !(pyStarts t "@@")))
              (by simp at h1; omega) (by simp at h2; omega)]
        | none =>
          simp only
          rw [ih g rest (by simp at h1; omega) (by simp at h2; omega)]

theorem findApplyHunks_nil : findApplyHunks [] = [] := rfl

theorem findApplyHunks_cons (s : String) (rest : List String) :
    findApplyHunks (s :: rest) =
      match parseApplyHdr s with
      | some h =>
        (digitsToNat h.a,
          pySplitlinesKeep (joinAll (rest.takeWhile (fun t => !(pyStarts t "@@"))))) ::
          findApplyHunks (rest.dropWhile (fun t => !(pyStarts t "@@")))
      | none => findApplyHunks rest := by
  show findApplyHunksGo (rest.length + 1) (s :: rest) = _
  simp only [findApplyHunksGo]
  cases parseApplyHdr s with
  | some h =>
    simp only
    rw [findApplyHunksGo_fuel rest.length
        (rest.dropWhile (fun t => !(pyStarts t "@@"))).length
        (rest.dropWhile (fun t => !(pyStarts t "@@")))
        (length_dropWhile_le' _ _) (le_refl _)]
    rfl
  | none =>
    simp only
    rfl

/-- hl[1:] on a line. -/
def dropFirstChar (hl : String) : String := String.mk hl.data.tail

/-- The inner loop over one hunk body: "+" emits, "-" consumes, anything
    else copies lines[src_pos] (IndexError gives none). -/
def applyHunkLines (lines : List String) :
    List String → List String × Int → Option (List String × Int)
  | [], st => some st
  | hl :: hs, (acc, pos) =>
    if pyStarts hl "+" then applyHunkLines lines hs (acc ++ [dropFirstChar hl], pos)
    else if pyStarts hl "-" then applyHunkLines lines hs (acc, pos + 1)
    else match pyGet lines pos with
      | some l => applyHunkLines lines hs (acc ++ [l], pos + 1)
      | none => none

/-- The loop over hunks: copy up to src_start, then the body loop. -/
def applyHunks (lines : List String) :
    List (Nat × List String) → List String × Int → Option (List String × Int)
  | [], st => some st
  | (n, body) :: hs, (acc, pos) =>
    let start : Int := (n : Int) - 1
    match applyHunkLines lines body (acc ++ pySlice lines pos start, start) with
    | some st2 => applyHunks lines hs st2
    | none => none

/-- Whole-file application: hunk loop then the remaining original lines. -/
def applyFileHunks (lines : List String) (hunks : List (Nat × List String)) :
    Option (List String) :=
  match applyHunks lines hunks ([], 0) with
  | some (acc, pos) => some (acc ++ pySliceFrom lines pos)
  | none => none

structure PState where
  applied : List String
  errors : List String
  fs : FS
  deriving Repr, DecidableEq

/-- readlines of the target file, empty when the file does not exist. -/
def blockFileLines (fs : FS) (relPath : String) : List String :=
  match fsGet fs relPath with
  | some content => splitNLKeep content
  | none => []

/-- The body of the per-block loop of _apply_patch_python (the local
    bindings of the Python body are written inline). -/
def processBlock (st : PState) (blockRaw : String) : PState :=
  if pyStrip blockRaw = "" then st else
  match findPlusPath (pyStrip blockRaw) with
  | none => st
  | some rawPath =>
    if pyStrip rawPath = "/dev/null" then st else
    if findApplyHunks (splitNLKeep (pyStrip blockRaw)) = [] then st else
    match applyFileHunks (blockFileLines st.fs (pyStrip rawPath))
        (findApplyHunks (splitNLKeep (pyStrip blockRaw))) with
    | none =>
      { st with errors :=
          st.errors ++ [pyStrip rawPath ++ ": hunk mismatch — list index out of range"] }
    | some newLines =>
      { st with fs := fsSet st.fs (pyStrip rawPath) (joinAll newLines),
                applied := st.applied ++ [pyStrip rawPath] }

def applyBlocks (st : PState) : List String → PState
  | [] => st
  | b :: bs => applyBlocks (processBlock st b) bs

/-- The block split plus the per-block loop. -/
def applyPatchCore (patchText : String) (fs : FS) : PState :=
  applyBlocks ⟨[], [], fs⟩ ((chunkCore (splitNLKeep patchText) []).map joinAll)

def joinComma : List String → String
  | [] => ""
  | [l] => l
  | l :: ls => l ++ ", " ++ joinComma ls

/-- ai_build/git_ops.py _apply_patch_python, given the patch-file text and
    the filesystem; returns the (success, message) pair and the final
    filesystem state. -/
def _apply_patch_python (patchText : String) (fs : FS) : (Bool × String) × PState :=
  let st := applyPatchCore patchText fs
  if st.errors ≠ [] then ((false, "Patch errors:\n" ++ joinNL st.errors), st)
  else if st.applied = [] then
    ((false, "No files were changed — patch may be empty or already applied."), st)
  else ((true, "Patch applied to: " ++ joinComma st.applied), st)

/-! ## reviewer._parse_review

Values decoded from JSON by the (external) json module are modelled by
PyVal; str() of a non-string container is abstracted by a nonempty
rendering opening with the bracket character, which is all the parser ever
depends on.  The decoder itself is a parameter: every theorem below holds
for an arbitrary decoder. -/

inductive PyVal where
  | pstr (s : String)
  | plist (l : List PyVal)
  | pobj (l : List (String × PyVal))
  | pother (render : String)
  deriving Repr

def lbrace : Char := Char.ofNat 0x7b
def rbrace : Char := Char.ofNat 0x7d

def pyStr : PyVal → String
  | .pstr s => s
  | .pother r => r
  | .plist _ => "[...]"
  | .pobj _ => String.mk (lbrace :: '.' :: '.' :: '.' :: [rbrace])

/-- dict.get with default; json.loads keeps the last duplicate key. -/
def pyDictGet (d : List (String × PyVal)) (k : String) (dflt : PyVal) : PyVal :=
  match (d.filter (fun kv => kv.1 = k)).getLast? with
  | some kv => kv.2
  | none => dflt

def fence3 : String := String.mk [Char.ofNat 0x60, Char.ofNat 0x60, Char.ofNat 0x60]

/-- The markdown-fence strip at the top of _parse_review. -/
def stripReviewFences (text : String) : String :=
  if pyStarts text fence3 then
    let lines := pySplitlines text
    let e := match lines.getLast? with
      | some l => if pyStrip l = fence3 then lines.length - 1 else lines.length
      | none => lines.length
    pyStrip (joinNL ((lines.drop 1).take (e - 1)))
  else text

/-- re.search(r"\{[\s\S]*\}", text): from the first opening brace to the
    last closing brace, provided the latter comes after the former. -/
def findBraceSpan (cs : List Char) : Option (List Char) :=
  match cs.findIdx? (fun c => c = lbrace) with
  | some i =>
    match cs.reverse.findIdx? (fun c => c = rbrace) with
    | some jr =>
      let j := cs.length - 1 - jr
      if i < j then some ((cs.drop i).take (j - i + 1)) else none
    | none => none
  | none => none

structure Review where
  verdict : String
  summary : String
  issues : List String
  notes : String
  raw : String
  deriving Repr, DecidableEq

/-- str(data.get("verdict", "concerns")).lower().strip() with the
    normalisation of unknown verdicts to "concerns". -/
def jsonVerdict (data : List (String × PyVal)) : String :=
  let v0 := pyStrip (pyLower (pyStr (pyDictGet data "verdict" (.pstr "concerns"))))
  if v0 = "approve" ∨ v0 = "concerns" ∨ v0 = "reject" then v0 else "concerns"

/-- Python iteration over the "issues" value: a string is wrapped in a
    singleton, a list iterates, a dict iterates its keys, anything else
    raises TypeError (none). -/
def jsonIssuesList : PyVal → Option (List PyVal)
  | .pstr s => some [.pstr s]
  | .plist l => some l
  | .pobj l => some (l.map (fun kv => .pstr kv.1))
  | .pother _ => none

/-- The JSON branch of _parse_review; none models the TypeError raised by
    iterating a non-iterable "issues" value, which re-enters the heuristic
    fallback. -/
def reviewFromJson (raw : String) (data : List (String × PyVal)) : Option Review :=
  match jsonIssuesList (pyDictGet data "issues" (.plist [])) with
  | none => none
  | some il => some
      { verdict := jsonVerdict data,
        summary := pyStrip (pyStr (pyDictGet data "summary" (.pstr ""))),
        issues := (il.map (fun i => pyStrip (pyStr i))).filter (fun s => s ≠ ""),
        notes := pyStrip (pyStr (pyDictGet data "notes" (.pstr ""))),
        raw := raw }

/-- ASCII word characters of the regex \b boundary. -/
def isWordChar (c : Char) : Bool :=
  ('a' ≤ c && c ≤ 'z') || ('A' ≤ c && c ≤ 'Z') || isDig c || c = '_'

def boundaryOK : Option Char → Bool
  | none => true
  | some c => !(isWordChar c)

def afterOK : List Char → Bool
  | [] => true
  | d :: _ => !(isWordChar d)

/-- re.search(r"\bW\b", raw, re.I) for a lowercase ASCII word W. -/
def containsWordCI (raw : String) (w : String) : Bool :=
  go none (raw.data.map pyLowerChar)
where
  go : Option Char → List Char → Bool
    | _, [] => false
    | prev, l@(c :: rest) =>
      (boundaryOK prev && w.data.isPrefixOf l && afterOK (l.drop w.data.length))
        || go (some c) rest

def isColonWS (c : Char) : Bool := c = ':' || isSpaceRe c

/-- The backtracking tail of re.search(r"SUMMARY[:\s]+(.+)", ...) when the
    separator run reaches the end of the string: give characters back to
    the group, longest first. -/
def summaryBacktrack (run : List Char) : Option String :=
  go (run.length - 1)
where
  go : Nat → Option String
    | 0 => none
    | Nat.succ k =>
      match run.get? (Nat.succ k) with
      | some c =>
        if c ≠ '\n' then
          some (String.mk ((run.drop (Nat.succ k)).takeWhile (fun d => d ≠ '\n')))
        else go k
      | none => go k

/-- Attempt of the SUMMARY pattern right after a "summary" occurrence. -/
def summaryAt (cs : List Char) : Option String :=
  let run := cs.takeWhile isColonWS
  let rest := cs.dropWhile isColonWS
  if run = [] then none
  else match rest with
    | _ :: _ => some (String.mk (rest.takeWhile (fun d => d ≠ '\n')))
    | [] => summaryBacktrack run

/-- re.search(r"SUMMARY[:\s]+(.+)", raw, re.I): the leftmost successful
    occurrence wins. -/
def searchSummary (raw : String) : Option String :=
  go raw.data
where
  go : List Char → Option String
    | [] => none
    | l@(_ :: rest) =>
      if (l.take 7).map pyLowerChar = "summary".data then
        match summaryAt (l.drop 7) with
        | some g => some g
        | none => go rest
      else go rest

def bulletChar : Char := Char.ofNat 0x2022

def bulletSet : List Char := ['-', ' ', bulletChar, '*']

/-- The heuristic text fallback of _parse_review; none models the
    IndexError of raw.splitlines()[0] on an empty response. -/
def fallbackVerdict (raw : String) : String :=
  if containsWordCI raw "reject" then "reject"
  else if containsWordCI raw "approve" then "approve" else "concerns"

def parseReviewFallback (raw : String) : Option Review :=
  let verdict := fallbackVerdict raw
  let issues := ((pySplitlines raw).filter (fun line =>
      let s := pyStrip line
      (pyStarts s "-" || pyStarts s (String.mk [bulletChar]) || pyStarts s "*")
        && s.data.length > 3)).map
    (fun line => pyStrip (pyLstripSet bulletSet line))
  match searchSummary raw with
  | some g => some ⟨verdict, pyStrip g, issues, "", raw⟩
  | none =>
    match pySplitlines raw with
    | [] => none
    | l :: _ => some ⟨verdict, String.mk (l.data.take 120), issues, "", raw⟩

/-- ai_build/reviewer.py _parse_review, parametric in the JSON decoder
    (json.loads restricted to object documents; none is a decode error). -/
def _parse_review (jsonParse : String → Option (List (String × PyVal)))
    (raw : String) : Option Review :=
  match findBraceSpan (stripReviewFences (pyStrip raw)).data with
  | some span =>
    match jsonParse (String.mk span) with
    | some data =>
      match reviewFromJson raw data with
      | some r => some r
      | none => parseReviewFallback raw
    | none => parseReviewFallback raw
  | none => parseReviewFallback raw

/-! ## storage.update_step_status and the server state -/

structure Step where
  id : Int
  title : String
  description : String
  suggested_files : List String
  acceptance_criteria : List String
  status : Option String
  deriving Repr, DecidableEq

structure Plan where
  goal : String
  steps : List Step
  deriving Repr, DecidableEq

/-- The for-loop of update_step_status: set the status of the first step
    with the given id and break. -/
def setFirstStatus : List Step → Int → String → List Step
  | [], _, _ => []
  | s :: r, sid, st =>
    if s.id = sid then { s with status := some st } :: r
    else s :: setFirstStatus r sid st

/-- ai_build/storage.py update_step_status over the persisted plan. -/
def update_step_status (p : Option Plan) (sid : Int) (st : String) : Option Plan :=
  match p with
  | none => none
  | some pl => some { pl with steps := setFirstStatus pl.steps sid st }

/-- The modelled fields of the server session state _state together with
    the persisted plan.json content. -/
structure SState where
  goal : String
  diffs : List (Int × String)
  refined_diffs : List (Int × String)
  reviews : List (Int × Review)
  final_prompt : String
  active_step_id : Option Int
  info : String
  error : String
  project_root : String
  bg_running : Bool
  bg_label : String
  plan : Option Plan
  deriving Repr, DecidableEq

def dictPop {α : Type} (d : List (Int × α)) (k : Int) : List (Int × α) :=
  d.filter (fun kv => kv.1 ≠ k)

def _flash (s : SState) (msg err : String) : SState :=
  { s with info := msg, error := err }

/-- load_plan() guarded by the project_root truthiness check. -/
def loadPlanGuarded (s : SState) : Option Plan :=
  if s.project_root = "" then none else s.plan

def _active_step (s : SState) : Option Step :=
  match loadPlanGuarded s with
  | none => none
  | some p =>
    match s.active_step_id with
    | none => none
    | some sid => p.steps.find? (fun st => st.id == sid)

def _first_pending (p : Plan) : Option Step :=
  p.steps.find? (fun s => (s.status.getD "pending") == "pending")

/-- best_diff = refined_diffs.get(sid) or diffs.get(sid, "") with Python
    or-falsiness on the empty string. -/
def bestDiff (s : SState) (sid : Int) : String :=
  match s.refined_diffs.lookup sid with
  | some v => if v ≠ "" then v else ((s.diffs.lookup sid).getD "")
  | none => (s.diffs.lookup sid).getD ""

/-- ai_build/server.py apply_patch_route. -/
def apply_patch_route (s : SState) : SState :=
  match _active_step s with
  | none => _flash s "" "No active step selected."
  | some step =>
    let sid := step.id
    let best := bestDiff s sid
    if best = "" then _flash s "" "No diff found — generate a patch first."
    else
      let s1 := { s with
        plan := update_step_status s.plan sid "approved"
        final_prompt := "" }
      let s2 := match s1.plan with
        | some p => { s1 with active_step_id := Option.map Step.id (_first_pending p) }
        | none => { s1 with active_step_id := none }
      let s3 := { s2 with
        diffs := dictPop s2.diffs sid
        reviews := dictPop s2.reviews sid }
      _flash s3 ("✓ Step " ++ toString sid ++ " approved.") ""

/-- ai_build/server.py reset_step. -/
def reset_step (s : SState) (step_id : Int) : SState :=
  let s1 := { s with
    plan := update_step_status s.plan step_id "pending"
    active_step_id := some step_id }
  let s2 := { s1 with
    diffs := dictPop s1.diffs step_id
    reviews := dictPop s1.reviews step_id }
  _flash s2 ("Step " ++ toString step_id ++ " reset to pending.") ""

/-- The synchronous part of a background route: the returned flag records
    whether a worker thread was started (its asynchronous body is outside
    the modelled transition). -/
def plan_local (s : SState) (formGoal : String) : SState × Bool :=
  let goal := if pyStrip formGoal ≠ "" then pyStrip formGoal else s.goal
  if goal = "" then (_flash s "" "Please enter a goal first.", false)
  else if s.bg_running then (_flash s "" "Ollama is already running — please wait.", false)
  else
    let s2 := { s with
      goal := goal
      bg_running := true
      bg_label := "Ollama is generating a plan… (30–90 s)" }
    (s2, true)

def patch_local (s : SState) : SState × Bool :=
  match _active_step s with
  | none => (_flash s "" "No active step selected.", false)
  | some step =>
    if s.bg_running then (_flash s "" "Ollama is already running — please wait.", false)
    else
      let s2 := { s with
        bg_running := true
        bg_label := "Ollama generating patch for step "
          ++ toString step.id ++ "… (30–90 s)" }
      (s2, true)

def refine_patch_route (s : SState) : SState × Bool :=
  match _active_step s with
  | none => (_flash s "" "No active step selected.", false)
  | some step =>
    if s.bg_running then (_flash s "" "Ollama is already running — please wait.", false)
    else
      let diff := (s.diffs.lookup step.id).getD ""
      if diff = "" then (_flash s "" "No diff to refine — generate a patch first.", false)
      else
        let s2 := { s with
          bg_running := true
          bg_label := "Ollama-Refiner cleaning up patch for step "
            ++ toString step.id ++ "…" }
        (s2, true)

def run_all (s : SState) : SState × Bool :=
  match s.plan with
  | none => (_flash s "" "No plan loaded.", false)
  | some p =>
    if s.bg_running then (_flash s "" "Already running — please wait.", false)
    else
      let pending := p.steps.filter (fun st => (st.status.getD "pending") == "pending")
      if pending = [] then (_flash s "" "No pending steps.", false)
      else
        let s2 := { s with
          bg_running := true
          bg_label := "Run All: starting " ++ toString pending.length
            ++ " step(s)…" }
        (s2, true)

/-- The four background-starting requests. -/
inductive BgRequest where
  | planLocal (formGoal : String)
  | patchLocal
  | refinePatch
  | runAll

def dispatchBg (s : SState) : BgRequest → SState × Bool
  | .planLocal g => plan_local s g
  | .patchLocal => patch_local s
  | .refinePatch => refine_patch_route s
  | .runAll => run_all s

/-! ## General list helpers -/

theorem takeWhile_append_all {α : Type} (p : α → Bool) (xs ys : List α)
    (h : ∀ x ∈ xs, p x = true) :
    (xs ++ ys).takeWhile p = xs ++ ys.takeWhile p := by
  induction xs with
  | nil => simp
  | cons x r ih =>
    have hx : p x = true := h x (by simp)
    simp only [List.cons_append, List.takeWhile_cons, hx]
    rw [ih (fun a ha => h a (by simp [ha]))]
    simp

theorem dropWhile_append_all {α : Type} (p : α → Bool) (xs ys : List α)
    (h : ∀ x ∈ xs, p x = true) :
    (xs ++ ys).dropWhile p = ys.dropWhile p := by
  induction xs with
  | nil => simp
  | cons x r ih =>
    have hx : p x = true := h x (by simp)
    simp only [List.cons_append, List.dropWhile_cons, hx]
    exact ih (fun a ha => h a (by simp [ha]))

theorem takeWhile_cons_false {α : Type} (p : α → Bool) (y : α) (ys : List α)
    (h : p y = false) : (y :: ys).takeWhile p = [] := by
  simp [List.takeWhile_cons, h]

theorem dropWhile_cons_false {α : Type} (p : α → Bool) (y : α) (ys : List α)
    (h : p y = false) : (y :: ys).dropWhile p = y :: ys := by
  simp [List.dropWhile_cons, h]

/-- Bool substring check used to express byte-identity failures. -/
def isInfixB (a b : List Char) : Bool :=
  a.isPrefixOf b ||
  match b with
  | [] => false
  | _ :: t => isInfixB a t

/-! ## C10 -/

def statusOfFirst (p : Option Plan) (sid : Int) : Option (Option String) :=
  match p with
  | none => none
  | some pl => (pl.steps.find? (fun t => t.id == sid)).map Step.status

theorem setFirst_spec (steps : List Step) (sid : Int) (st : String) :
    ((∀ t ∈ steps, t.id ≠ sid) ∧ setFirstStatus steps sid st = steps) ∨
    (∃ pre s post, steps = pre ++ s :: post ∧ (∀ t ∈ pre, t.id ≠ sid) ∧ s.id = sid ∧
       setFirstStatus steps sid st = pre ++ ({ s with status := some st } :: post)) := by
  induction steps with
  | nil => left; exact ⟨by simp, rfl⟩
  | cons s r ih =>
    by_cases h : s.id = sid
    · right
      exact ⟨[], s, r, by simp, by simp, h, by simp [setFirstStatus, h]⟩
    · rcases ih with ⟨hall, heq⟩ | ⟨pre, t, post, hsplit, hpre, hid, heq⟩
      · left
        refine ⟨?_, by simp [setFirstStatus, h, heq]⟩
        intro t ht
        rcases List.mem_cons.mp ht with rfl | ht2
        · exact h
        · exact hall t ht2
      · right
        refine ⟨s :: pre, t, post, by simp [hsplit], ?_, hid,
          by simp [setFirstStatus, h, heq]⟩
        intro u hu
        rcases List.mem_cons.mp hu with rfl | hu2
        · exact h
        · exact hpre u hu2

/-- C10: update_step_status changes at most the status field of the first
    step whose id matches, keeps the goal, every other step and every other
    field of that step, keeps the plan unchanged when no step matches, and
    keeps a missing persisted plan missing. -/
theorem claim_C10_update_frame (pl : Plan) (sid : Int) (st : String) :
    update_step_status none sid st = none ∧
    ∃ pl2, update_step_status (some pl) sid st = some pl2 ∧ pl2.goal = pl.goal ∧
      (((∀ t ∈ pl.steps, t.id ≠ sid) ∧ pl2.steps = pl.steps) ∨
       (∃ pre s post, pl.steps = pre ++ s :: post ∧ (∀ t ∈ pre, t.id ≠ sid) ∧
          s.id = sid ∧ pl2.steps = pre ++ ({ s with status := some st } :: post))) := by
  refine ⟨rfl, { pl with steps := setFirstStatus pl.steps sid st }, rfl, rfl, ?_⟩
  exact setFirst_spec pl.steps sid st

/-! ## C8 -/

/-- C8: while a background job is in flight, each of the four
    background-starting routes rejects the request: no worker is started
    and nothing besides the flash message changes. -/
theorem claim_C8_single_writer (s : SState) (r : BgRequest)
    (h : s.bg_running = true) :
    (dispatchBg s r).2 = false ∧
    (dispatchBg s r).1.goal = s.goal ∧
    (dispatchBg s r).1.diffs = s.diffs ∧
    (dispatchBg s r).1.refined_diffs = s.refined_diffs ∧
    (dispatchBg s r).1.reviews = s.reviews ∧
    (dispatchBg s r).1.final_prompt = s.final_prompt ∧
    (dispatchBg s r).1.active_step_id = s.active_step_id ∧
    (dispatchBg s r).1.project_root = s.project_root ∧
    (dispatchBg s r).1.bg_running = s.bg_running ∧
    (dispatchBg s r).1.bg_label = s.bg_label ∧
    (dispatchBg s r).1.plan = s.plan := by
  cases r with
  | planLocal g =>
    simp only [dispatchBg, plan_local, h]
    split <;> (try split) <;> simp_all [_flash]
  | patchLocal =>
    cases hA : _active_step s <;> simp [dispatchBg, patch_local, _flash, h, hA]
  | refinePatch =>
    cases hA : _active_step s <;> simp [dispatchBg, refine_patch_route, _flash, h, hA]
  | runAll =>
    cases hP : s.plan <;> simp [dispatchBg, run_all, _flash, h, hP]

def sW : SState :=
  { goal := "g", diffs := [], refined_diffs := [], reviews := [],
    final_prompt := "", active_step_id := none, info := "", error := "",
    project_root := "", bg_running := true, bg_label := "busy", plan := none }

theorem claim_C8_witness :
    (dispatchBg sW .patchLocal).2 = false ∧
    (dispatchBg sW .patchLocal).1.goal = sW.goal ∧
    (dispatchBg sW .patchLocal).1.diffs = sW.diffs ∧
    (dispatchBg sW .patchLocal).1.refined_diffs = sW.refined_diffs ∧
    (dispatchBg sW .patchLocal).1.reviews = sW.reviews ∧
    (dispatchBg sW .patchLocal).1.final_prompt = sW.final_prompt ∧
    (dispatchBg sW .patchLocal).1.active_step_id = sW.active_step_id ∧
    (dispatchBg sW .patchLocal).1.project_root = sW.project_root ∧
    (dispatchBg sW .patchLocal).1.bg_running = sW.bg_running ∧
    (dispatchBg sW .patchLocal).1.bg_label = sW.bg_label ∧
    (dispatchBg sW .patchLocal).1.plan = sW.plan :=
  claim_C8_single_writer sW .patchLocal rfl

/-! ## Dictionary and plan helper lemmas -/

theorem lookup_dictPop {α : Type} (d : List (Int × α)) (k : Int) :
    (dictPop d k).lookup k = none := by
  induction d with
  | nil => rfl
  | cons kv r ih =>
    obtain ⟨a, b⟩ := kv
    by_cases h : a = k
    · have hstep : dictPop ((a, b) :: r) k = dictPop r k := by
        simp [dictPop, h]
      rw [hstep]
      exact ih
    · have hstep : dictPop ((a, b) :: r) k = (a, b) :: dictPop r k := by
        simp [dictPop, h]
      rw [hstep]
      have hbeq : (k == a) = false := by
        simp only [beq_eq_false_iff_ne, ne_eq]
        exact fun e => h e.symm
      simp only [List.lookup, hbeq]
      exact ih

theorem dictPop_idem {α : Type} (d : List (Int × α)) (k : Int) :
    dictPop (dictPop d k) k = dictPop d k := by
  induction d with
  | nil => rfl
  | cons kv r ih =>
    by_cases h : kv.1 = k
    · simp [dictPop, h] at ih ⊢
    · simp [dictPop, h] at ih ⊢

theorem setFirst_idem (l : List Step) (sid : Int) (st : String) :
    setFirstStatus (setFirstStatus l sid st) sid st = setFirstStatus l sid st := by
  induction l with
  | nil => rfl
  | cons s r ih =>
    by_cases h : s.id = sid
    · simp [setFirstStatus, h]
    · simp [setFirstStatus, h, ih]

theorem update_step_status_idem (p : Option Plan) (sid : Int) (st : String) :
    update_step_status (update_step_status p sid st) sid st =
      update_step_status p sid st := by
  cases p with
  | none => rfl
  | some pl => simp [update_step_status, setFirst_idem]

theorem find_setFirst (steps : List Step) (sid : Int) (st : String) (t : Step)
    (h : steps.find? (fun u => u.id == sid) = some t) :
    (setFirstStatus steps sid st).find? (fun u => u.id == sid) =
      some { t with status := some st } := by
  induction steps with
  | nil => simp [List.find?] at h
  | cons s r ih =>
    by_cases hs : s.id = sid
    · have hb : (s.id == sid) = true := beq_iff_eq.mpr hs
      simp only [List.find?, hb] at h
      cases h
      simp [setFirstStatus, hs, List.find?, hb]
    · have hb : (s.id == sid) = false := by
        simp [beq_iff_eq, hs]
      simp only [List.find?, hb] at h
      simp [setFirstStatus, hs, List.find?, hb, ih h]

/-! ## C6 -/

/-- C6: decide(approve) on a step with no stored draft or refined diff is
    rejected with the "No diff found" error and changes nothing but the
    flash message; in particular the persisted plan, hence the step status,
    is untouched. -/
theorem claim_C6_approve_no_diff (s : SState) (step : Step)
    (h1 : _active_step s = some step) (h2 : bestDiff s step.id = "") :
    apply_patch_route s = _flash s "" "No diff found — generate a patch first." ∧
    (apply_patch_route s).plan = s.plan ∧
    (apply_patch_route s).diffs = s.diffs ∧
    (apply_patch_route s).refined_diffs = s.refined_diffs ∧
    (apply_patch_route s).reviews = s.reviews ∧
    (apply_patch_route s).active_step_id = s.active_step_id ∧
    statusOfFirst (apply_patch_route s).plan step.id = statusOfFirst s.plan step.id := by
  have hroute : apply_patch_route s =
      _flash s "" "No diff found — generate a patch first." := by
    simp [apply_patch_route, h1, h2]
  rw [hroute]
  simp [_flash]

def st6 : Step :=
  { id := 1, title := "t", description := "d", suggested_files := [],
    acceptance_criteria := [], status := some "pending" }

def s6 : SState :=
  { goal := "g", diffs := [], refined_diffs := [], reviews := [],
    final_prompt := "fp", active_step_id := some 1, info := "", error := "",
    project_root := "/p", bg_running := false, bg_label := "",
    plan := some { goal := "g", steps := [st6] } }

theorem claim_C6_witness :
    apply_patch_route s6 = _flash s6 "" "No diff found — generate a patch first." ∧
    (apply_patch_route s6).plan = s6.plan ∧
    (apply_patch_route s6).diffs = s6.diffs ∧
    (apply_patch_route s6).refined_diffs = s6.refined_diffs ∧
    (apply_patch_route s6).reviews = s6.reviews ∧
    (apply_patch_route s6).active_step_id = s6.active_step_id ∧
    statusOfFirst (apply_patch_route s6).plan st6.id = statusOfFirst s6.plan st6.id :=
  claim_C6_approve_no_diff s6 st6 (by decide) (by decide)

/-! ## C5 -/

def patchC5 : String :=
  "diff --git a/A b/A\n--- a/A\n+++ b/A\n@@ -1,1 +1,2 @@\n a\n+x\ndiff --git a/B b/B\n--- a/B\n+++ b/B\n@@ -5,1 +5,1 @@\n ctx\n"

def fsC5 : FS := [("A", "a\n"), ("B", "b\n")]

/-- C5: the Python applier reports success exactly when at least one file
    changed and the error list is empty; in the two-file scenario where A
    applies and the hunk start of B exceeds the length of B, the applier
    reports changedFiles = [A], an error naming B, and failure; and zero
    changed files with zero errors is also reported as failure. -/
theorem claim_C5_success_iff :
    (∀ (patchText : String) (fs : FS),
        ((_apply_patch_python patchText fs).1.1 = true) ↔
          ((applyPatchCore patchText fs).errors = [] ∧
           (applyPatchCore patchText fs).applied ≠ [])) ∧
    (applyPatchCore patchC5 fsC5).applied = ["A"] ∧
    (applyPatchCore patchC5 fsC5).errors =
      ["B: hunk mismatch — list index out of range"] ∧
    (_apply_patch_python patchC5 fsC5).1.1 = false ∧
    (∀ (patchText : String) (fs : FS),
        (applyPatchCore patchText fs).errors = [] →
        (applyPatchCore patchText fs).applied = [] →
        (_apply_patch_python patchText fs).1 =
          (false, "No files were changed — patch may be empty or already applied.")) := by
  refine ⟨?_, by decide, by decide, by decide, ?_⟩
  · intro p fs
    unfold _apply_patch_python
    by_cases he : (applyPatchCore p fs).errors = []
    · by_cases ha : (applyPatchCore p fs).applied = [] <;> simp [he, ha]
    · simp [he]
  · intro p fs he ha
    unfold _apply_patch_python
    simp [he, ha]

theorem claim_C5_witness :
    ((applyPatchCore patchC5 fsC5).errors = [] →
     (applyPatchCore patchC5 fsC5).applied = [] →
     (_apply_patch_python patchC5 fsC5).1 =
       (false, "No files were changed — patch may be empty or already applied.")) ∧
    (((_apply_patch_python "" []).1.1 = true) ↔
      (((applyPatchCore "" []).errors = []) ∧ (applyPatchCore "" []).applied ≠ [])) :=
  ⟨claim_C5_success_iff.2.2.2.2 patchC5 fsC5, claim_C5_success_iff.1 "" []⟩

/-! ## C7 -/

def s7 : SState :=
  { goal := "g", diffs := [(1, "DRAFT")], refined_diffs := [(1, "RDIFF")],
    reviews := [], final_prompt := "", active_step_id := some 1, info := "",
    error := "", project_root := "/p", bg_running := false, bg_label := "",
    plan := some { goal := "g", steps := [st6] } }

/-- C7 counterexample: reset_step pops the draft diff and the review but
    not the refined diff, so "clears all artifacts" fails: after resetting
    step 1 the stored refined diff is still present. -/
theorem claim_C7_counterexample :
    (reset_step s7 1).refined_diffs = [(1, "RDIFF")] ∧
    (reset_step s7 1).diffs = [] ∧
    (reset_step s7 1).refined_diffs ≠ [] := by
  refine ⟨by decide, by decide, by decide⟩

/-- C7 amended: reset clears the draft diff and the review of the step,
    returns the status of the first step with that id to pending (leaving
    the goal and all other steps unchanged), makes the step active, leaves
    the refined diff in place, and is idempotent. -/
theorem claim_C7_reset (s : SState) (sid : Int) :
    (reset_step s sid).diffs.lookup sid = none ∧
    (reset_step s sid).reviews.lookup sid = none ∧
    (reset_step s sid).refined_diffs = s.refined_diffs ∧
    (reset_step s sid).active_step_id = some sid ∧
    (∀ pl, s.plan = some pl →
        ∃ pl2, (reset_step s sid).plan = some pl2 ∧ pl2.goal = pl.goal ∧
          (((∀ t ∈ pl.steps, t.id ≠ sid) ∧ pl2.steps = pl.steps) ∨
           ∃ pre t post, pl.steps = pre ++ t :: post ∧ (∀ u ∈ pre, u.id ≠ sid) ∧
             t.id = sid ∧
             pl2.steps = pre ++ ({ t with status := some "pending" } :: post))) ∧
    reset_step (reset_step s sid) sid = reset_step s sid := by
  refine ⟨?_, ?_, rfl, rfl, ?_, ?_⟩
  · exact lookup_dictPop _ _
  · exact lookup_dictPop _ _
  · intro pl hpl
    refine ⟨{ pl with steps := setFirstStatus pl.steps sid "pending" }, ?_, rfl, ?_⟩
    · simp [reset_step, _flash, update_step_status, hpl]
    · exact setFirst_spec pl.steps sid "pending"
  · simp [reset_step, _flash, update_step_status_idem, dictPop_idem]

def s7b : SState := { s7 with refined_diffs := [] }

theorem claim_C7_witness :
    (reset_step s7b 1).diffs.lookup 1 = none ∧
    (reset_step s7b 1).reviews.lookup 1 = none ∧
    (reset_step s7b 1).refined_diffs = s7b.refined_diffs ∧
    (reset_step s7b 1).active_step_id = some 1 ∧
    (∀ pl, s7b.plan = some pl →
        ∃ pl2, (reset_step s7b 1).plan = some pl2 ∧ pl2.goal = pl.goal ∧
          (((∀ t ∈ pl.steps, t.id ≠ 1) ∧ pl2.steps = pl.steps) ∨
           ∃ pre t post, pl.steps = pre ++ t :: post ∧ (∀ u ∈ pre, u.id ≠ 1) ∧
             t.id = 1 ∧
             pl2.steps = pre ++ ({ t with status := some "pending" } :: post))) ∧
    reset_step (reset_step s7b 1) 1 = reset_step s7b 1 :=
  claim_C7_reset s7b 1

/-! ## C1 -/

def dC1 : String := "--- a/f.txt\n+++ b/f.txt\n@@ -1,3 +1,3 @@\n a\n b\n c\n"

def fsC1 : FS := [("f.txt", "x\n")]

def stC1b : Step :=
  { id := 2, title := "t2", description := "d", suggested_files := [],
    acceptance_criteria := [], status := some "pending" }

def sC1 : SState :=
  { goal := "g", diffs := [(1, dC1)], refined_diffs := [], reviews := [],
    final_prompt := "fp", active_step_id := some 1, info := "", error := "",
    project_root := "/p", bg_running := false, bg_label := "",
    plan := some { goal := "g", steps := [st6, stC1b] } }

/-- C1 counterexample: the stored draft diff of the active step fails to
    apply through the patch applier (and changes no file), yet the approve
    route commits status approved and advances the pointer: the decision is
    not conditioned on a successful apply, and no apply is attempted. -/
theorem claim_C1_counterexample :
    (_apply_patch_python dC1 fsC1).1.1 = false ∧
    (applyPatchCore dC1 fsC1).fs = fsC1 ∧
    statusOfFirst (apply_patch_route sC1).plan 1 = some (some "approved") ∧
    (apply_patch_route sC1).active_step_id = some 2 := by
  refine ⟨by decide, by decide, by decide, by decide⟩

/-- C1 amended: decide(approve) on a step with a stored draft or refined
    diff never invokes the patch applier: it unconditionally sets the
    status of that step to approved in the persisted plan, clears the final
    prompt, advances the active pointer to the first pending step of the
    updated plan, pops the in-memory draft and review, and keeps the
    refined diff. -/
theorem claim_C1_approve_unconditional (s : SState) (step : Step)
    (h1 : _active_step s = some step) (h2 : bestDiff s step.id ≠ "") :
    (apply_patch_route s).plan = update_step_status s.plan step.id "approved" ∧
    statusOfFirst (apply_patch_route s).plan step.id = some (some "approved") ∧
    (∀ pl2, (apply_patch_route s).plan = some pl2 →
        (apply_patch_route s).active_step_id = Option.map Step.id (_first_pending pl2)) ∧
    (apply_patch_route s).diffs.lookup step.id = none ∧
    (apply_patch_route s).reviews.lookup step.id = none ∧
    (apply_patch_route s).refined_diffs = s.refined_diffs ∧
    (apply_patch_route s).final_prompt = "" := by
  have hplan : ∃ p, s.plan = some p ∧
      p.steps.find? (fun u => u.id == step.id) = some step := by
    unfold _active_step loadPlanGuarded at h1
    by_cases hroot : s.project_root = ""
    · simp [hroot] at h1
    · cases hp : s.plan with
      | none => simp [hroot, hp] at h1
      | some p =>
        cases ha : s.active_step_id with
        | none => simp [hroot, hp, ha] at h1
        | some sid =>
          simp only [hroot, if_false, hp, ha] at h1
          refine ⟨p, rfl, ?_⟩
          have hmem := List.find?_some h1
          have : step.id = sid := by simpa [beq_iff_eq] using List.find?_some h1
          rw [this]
          exact h1
  obtain ⟨p, hp, hfind⟩ := hplan
  have hroute : apply_patch_route s =
      _flash { { s with plan := update_step_status s.plan step.id "approved",
                        final_prompt := "" } with
               active_step_id := Option.map Step.id (_first_pending
                 { p with steps := setFirstStatus p.steps step.id "approved" }),
               diffs := dictPop s.diffs step.id,
               reviews := dictPop s.reviews step.id }
        ("✓ Step " ++ toString step.id ++ " approved.") "" := by
    simp only [apply_patch_route, h1]
    rw [if_neg h2]
    simp [hp, update_step_status]
  rw [hroute]
  refine ⟨by simp [_flash], ?_, ?_, by simp [_flash, lookup_dictPop],
    by simp [_flash, lookup_dictPop], by simp [_flash], by simp [_flash]⟩
  · simp only [_flash, statusOfFirst, hp, update_step_status]
    rw [find_setFirst p.steps step.id "approved" step hfind]
    rfl
  · intro pl2 hpl2
    simp only [_flash, hp, update_step_status] at hpl2 ⊢
    cases hpl2
    rfl

theorem claim_C1_witness :
    (apply_patch_route sC1).plan = update_step_status sC1.plan st6.id "approved" ∧
    statusOfFirst (apply_patch_route sC1).plan st6.id = some (some "approved") ∧
    (∀ pl2, (apply_patch_route sC1).plan = some pl2 →
        (apply_patch_route sC1).active_step_id =
          Option.map Step.id (_first_pending pl2)) ∧
    (apply_patch_route sC1).diffs.lookup st6.id = none ∧
    (apply_patch_route sC1).reviews.lookup st6.id = none ∧
    (apply_patch_route sC1).refined_diffs = sC1.refined_diffs ∧
    (apply_patch_route sC1).final_prompt = "" :=
  claim_C1_approve_unconditional sC1 st6 (by decide) (by decide)

/-! ## C2 -/

/-- Two hunk-body lines of the same kind: identical added lines, or both
    removals, or both context lines with arbitrary text. -/
def lineKindEq (a b : String) : Prop :=
  (pyStarts a "+" = true ∧ a = b) ∨
  (pyStarts a "+" = false ∧ pyStarts b "+" = false ∧
   pyStarts a "-" = true ∧ pyStarts b "-" = true) ∨
  (pyStarts a "+" = false ∧ pyStarts b "+" = false ∧
   pyStarts a "-" = false ∧ pyStarts b "-" = false)

/-- Hunks with the same start line and kind-equal bodies. -/
def hunkShapeEq (h1 h2 : Nat × List String) : Prop :=
  h1.1 = h2.1 ∧ List.Forall₂ lineKindEq h1.2 h2.2

theorem applyHunkLines_kindEq (lines : List String) (b1 b2 : List String)
    (h : List.Forall₂ lineKindEq b1 b2) :
    ∀ st, applyHunkLines lines b1 st = applyHunkLines lines b2 st := by
  induction h with
  | nil => intro st; rfl
  | @cons a b l1 l2 hab htail ih =>
    intro st
    obtain ⟨acc, pos⟩ := st
    rcases hab with ⟨hp, heq⟩ | ⟨hp1, hp2, hm1, hm2⟩ | ⟨hp1, hp2, hm1, hm2⟩
    · subst heq
      simp only [applyHunkLines, hp, if_true]
      exact ih _
    · simp only [applyHunkLines, hp1, hp2, hm1, hm2, Bool.false_eq_true,
        if_false, if_true]
      exact ih _
    · simp only [applyHunkLines, hp1, hp2, hm1, hm2, Bool.false_eq_true, if_false]
      cases pyGet lines pos with
      | some l => exact ih _
      | none => rfl

theorem applyHunks_kindEq (lines : List String) (hs1 hs2 : List (Nat × List String))
    (h : List.Forall₂ hunkShapeEq hs1 hs2) :
    ∀ st, applyHunks lines hs1 st = applyHunks lines hs2 st := by
  induction h with
  | nil => intro st; rfl
  | @cons a b l1 l2 hab htail ih =>
    intro st
    obtain ⟨acc, pos⟩ := st
    obtain ⟨n1, bd1⟩ := a
    obtain ⟨n2, bd2⟩ := b
    obtain ⟨hn, hb⟩ := hab
    simp only at hn
    subst hn
    simp only [applyHunks]
    rw [applyHunkLines_kindEq lines bd1 bd2 hb]
    cases applyHunkLines lines bd2
        (acc ++ pySlice lines pos ((n1 : Int) - 1), (n1 : Int) - 1) with
    | some st2 => exact ih _
    | none => rfl

theorem processBlock_error_frame (st : PState) (b : String)
    (h : (processBlock st b).errors ≠ st.errors) :
    (processBlock st b).fs = st.fs ∧ (processBlock st b).applied = st.applied := by
  unfold processBlock at h ⊢
  split at h
  · exact absurd rfl h
  · rename_i hb
    split at h
    · exact absurd rfl h
    · rename_i rawPath hfind
      split at h
      · exact absurd rfl h
      · rename_i hdev
        split at h
        · exact absurd rfl h
        · rename_i hhunks
          split at h
          · rename_i heq
            simp [if_neg hb, hfind, if_neg hdev, if_neg hhunks, heq]
          · exact absurd rfl h

theorem processBlock_acc (a e : List String) (fs : FS) (b : String) :
    processBlock ⟨a, e, fs⟩ b =
      ⟨a ++ (processBlock ⟨[], [], fs⟩ b).applied,
       e ++ (processBlock ⟨[], [], fs⟩ b).errors,
       (processBlock ⟨[], [], fs⟩ b).fs⟩ := by
  unfold processBlock
  split
  · simp
  · split
    · simp
    · split
      · simp
      · split
        · simp
        · split <;> rename_i heq <;> simp only [PState.mk.injEq] at heq ⊢ <;>
            simp_all

theorem applyBlocks_acc (bs : List String) : ∀ (a e : List String) (fs : FS),
    applyBlocks ⟨a, e, fs⟩ bs =
      ⟨a ++ (applyBlocks ⟨[], [], fs⟩ bs).applied,
       e ++ (applyBlocks ⟨[], [], fs⟩ bs).errors,
       (applyBlocks ⟨[], [], fs⟩ bs).fs⟩ := by
  induction bs with
  | nil => intro a e fs; simp [applyBlocks]
  | cons b bs ih =>
    intro a e fs
    simp only [applyBlocks]
    rw [processBlock_acc a e fs b]
    rw [ih (a ++ (processBlock ⟨[], [], fs⟩ b).applied)
           (e ++ (processBlock ⟨[], [], fs⟩ b).errors)
           (processBlock ⟨[], [], fs⟩ b).fs]
    rw [ih (processBlock ⟨[], [], fs⟩ b).applied
           (processBlock ⟨[], [], fs⟩ b).errors
           (processBlock ⟨[], [], fs⟩ b).fs]
    simp [List.append_assoc]

def dC2 : String := "--- a/f.txt\n+++ b/f.txt\n@@ -1,3 +1,3 @@\n a\n b\n c\n"

def fsC2 : FS := [("f.txt", "x\n")]

/-- C2 counterexample: a single-file patch whose only hunk has @@ start
    line 1 — in range of the one-line target file — still fails, because
    the context lines walk the cursor past the end of the file: the file is
    recorded as an error and left unchanged, refuting "succeeds when every
    hunk's @@ start line is in range". -/
theorem claim_C2_counterexample :
    (findApplyHunks (splitNLKeep (pyStrip dC2))).map Prod.fst = [1] ∧
    (splitNLKeep "x\n").length = 1 ∧
    (applyPatchCore dC2 fsC2).errors =
      ["f.txt: hunk mismatch — list index out of range"] ∧
    (_apply_patch_python dC2 fsC2).1.1 = false ∧
    fsGet (applyPatchCore dC2 fsC2).fs "f.txt" = some "x\n" := by
  refine ⟨by decide, by decide, by decide, by decide, by decide⟩

/-- C2 amended: the Python fallback trusts positions, never context text —
    replacing the text of context and removed lines changes nothing in the
    result of a file application (success is decided by the cursor staying
    in range at each context read, not by literal matching); a file whose
    application fails only appends its error, leaving the filesystem and
    the changed-file list untouched; and the remaining blocks of the patch
    are processed independently, from the same filesystem, with results
    accumulated. -/
theorem claim_C2_positional_trust :
    (∀ (lines : List String) (hs1 hs2 : List (Nat × List String)),
        List.Forall₂ hunkShapeEq hs1 hs2 →
        applyFileHunks lines hs1 = applyFileHunks lines hs2) ∧
    (∀ (st : PState) (b : String), (processBlock st b).errors ≠ st.errors →
        (processBlock st b).fs = st.fs ∧ (processBlock st b).applied = st.applied) ∧
    (∀ (bs : List String) (a e : List String) (fs : FS),
        applyBlocks ⟨a, e, fs⟩ bs =
          ⟨a ++ (applyBlocks ⟨[], [], fs⟩ bs).applied,
           e ++ (applyBlocks ⟨[], [], fs⟩ bs).errors,
           (applyBlocks ⟨[], [], fs⟩ bs).fs⟩) := by
  refine ⟨?_, processBlock_error_frame, applyBlocks_acc⟩
  intro lines hs1 hs2 h
  unfold applyFileHunks
  rw [applyHunks_kindEq lines hs1 hs2 h]

def stC2w : PState := ⟨[], [], fsC2⟩

theorem claim_C2_witness :
    applyFileHunks (splitNLKeep "x\ny\n") [(1, [" AAA\n", "+new\n"])] =
      applyFileHunks (splitNLKeep "x\ny\n") [(1, [" BBB\n", "+new\n"])] ∧
    ((processBlock stC2w (pyStrip dC2)).fs = stC2w.fs ∧
     (processBlock stC2w (pyStrip dC2)).applied = stC2w.applied) := by
  refine ⟨?_, ?_⟩
  · exact claim_C2_positional_trust.1 _ _ _
      (by
        refine List.Forall₂.cons ⟨rfl, ?_⟩ List.Forall₂.nil
        refine List.Forall₂.cons ?_ (List.Forall₂.cons ?_ List.Forall₂.nil)
        · right; right
          refine ⟨by decide, by decide, by decide, by decide⟩
        · left
          exact ⟨by decide, rfl⟩)
  · exact claim_C2_positional_trust.2.1 stC2w (pyStrip dC2) (by decide)

/-! ## C9 -/

theorem splitlinesCore_eq_nil_iff (keep : Bool) :
    ∀ (cs : List Char) (acc : List Char),
      splitlinesCore keep cs acc = [] ↔ (cs = [] ∧ acc = []) := by
  intro cs
  induction cs with
  | nil =>
    intro acc
    by_cases h : acc = [] <;> simp [splitlinesCore, h]
  | cons c tail ih =>
    intro acc
    cases tail with
    | nil =>
      simp only [splitlinesCore]
      by_cases h1 : isCR c = true
      · simp [h1]
      · simp only [h1, Bool.false_eq_true, if_false]
        by_cases h2 : isBoundaryChar c = true
        · simp [h2]
        · simp [h2, splitlinesCore]
    | cons d cs2 =>
      simp only [splitlinesCore]
      by_cases h1 : isCR c = true
      · by_cases h2 : d = '\n' <;> simp [h1, h2]
      · simp only [h1, Bool.false_eq_true, if_false]
        by_cases h2 : isBoundaryChar c = true
        · simp [h2]
        · simp only [h2, Bool.false_eq_true, if_false]
          rw [ih (c :: acc)]
          simp

theorem pySplitlines_eq_nil_iff (s : String) : pySplitlines s = [] ↔ s = "" := by
  unfold pySplitlines
  rw [List.map_eq_nil_iff, splitlinesCore_eq_nil_iff]
  constructor
  · rintro ⟨h, -⟩
    cases s
    simp_all
  · rintro rfl
    exact ⟨rfl, rfl⟩

theorem parseReviewFallback_total (raw : String) (h : raw ≠ "") :
    ∃ r, parseReviewFallback raw = some r := by
  unfold parseReviewFallback
  cases hs : searchSummary raw with
  | some g => exact ⟨_, rfl⟩
  | none =>
    cases hl : pySplitlines raw with
    | nil => exact absurd ((pySplitlines_eq_nil_iff raw).mp hl) h
    | cons l t => exact ⟨_, rfl⟩

theorem parseReviewFallback_verdict (raw : String) (r : Review)
    (h : parseReviewFallback raw = some r) :
    r.verdict = "approve" ∨ r.verdict = "concerns" ∨ r.verdict = "reject" := by
  have hv : r.verdict = fallbackVerdict raw := by
    unfold parseReviewFallback at h
    cases hs : searchSummary raw <;> rw [hs] at h
    · cases hl : pySplitlines raw <;> rw [hl] at h
      · exact absurd h (by simp)
      · cases h
        rfl
    · cases h
      rfl
  rw [hv]
  unfold fallbackVerdict
  split
  · right; right; rfl
  · split
    · left; rfl
    · right; left; rfl

theorem jsonVerdict_mem (data : List (String × PyVal)) :
    jsonVerdict data = "approve" ∨ jsonVerdict data = "concerns" ∨
      jsonVerdict data = "reject" := by
  unfold jsonVerdict
  by_cases hcond : pyStrip (pyLower (pyStr (pyDictGet data "verdict" (PyVal.pstr "concerns")))) = "approve" ∨
      pyStrip (pyLower (pyStr (pyDictGet data "verdict" (PyVal.pstr "concerns")))) = "concerns" ∨
      pyStrip (pyLower (pyStr (pyDictGet data "verdict" (PyVal.pstr "concerns")))) = "reject"
  · simp only [if_pos hcond]
    exact hcond
  · simp [hcond]

theorem reviewFromJson_verdict (raw : String) (data : List (String × PyVal))
    (r : Review) (h : reviewFromJson raw data = some r) :
    r.verdict = "approve" ∨ r.verdict = "concerns" ∨ r.verdict = "reject" := by
  have hv : r.verdict = jsonVerdict data := by
    unfold reviewFromJson at h
    cases hi : jsonIssuesList (pyDictGet data "issues" (.plist [])) <;> rw [hi] at h
    · exact absurd h (by simp)
    · cases h
      rfl
  rw [hv]
  exact jsonVerdict_mem data

/-- C9 counterexample: the heuristic fallback turns the line "-----" into
    the single issue "" (the bullet strip erases the whole line), so the
    issues list is not a list of non-empty strings; and the parser raises
    (none) on the empty response instead of returning a review. -/
theorem claim_C9_counterexample :
    (∃ r, _parse_review (fun _ => none) "-----" = some r ∧ "" ∈ r.issues) ∧
    _parse_review (fun _ => none) "" = none := by
  refine ⟨⟨⟨"concerns", "-----", [""], "", "-----"⟩, by decide, by simp⟩, by decide⟩

/-- C9 amended: for every JSON decoder and every non-empty raw reviewer
    output the parse yields a structured review (only the empty string
    raises), and any review it yields has a verdict in exactly
    approve / concerns / reject — malformed or unknown verdicts are
    normalised to concerns; the issues list may contain empty strings in
    the heuristic fallback. -/
theorem claim_C9_parse_review (jp : String → Option (List (String × PyVal)))
    (raw : String) (h : raw ≠ "") :
    (∃ r, _parse_review jp raw = some r) ∧
    (∀ r, _parse_review jp raw = some r →
        r.verdict = "approve" ∨ r.verdict = "concerns" ∨ r.verdict = "reject") := by
  constructor
  · unfold _parse_review
    cases hb : findBraceSpan (stripReviewFences (pyStrip raw)).data with
    | none => exact parseReviewFallback_total raw h
    | some span =>
      dsimp only
      cases hj : jp (String.mk span) with
      | none => exact parseReviewFallback_total raw h
      | some data =>
        dsimp only
        cases hrj : reviewFromJson raw data with
        | none => exact parseReviewFallback_total raw h
        | some r => exact ⟨r, rfl⟩
  · intro r hr
    unfold _parse_review at hr
    cases hb : findBraceSpan (stripReviewFences (pyStrip raw)).data <;>
      rw [hb] at hr <;> dsimp only at hr
    · exact parseReviewFallback_verdict raw r hr
    · rename_i span
      cases hj : jp (String.mk span) <;> rw [hj] at hr <;> dsimp only at hr
      · exact parseReviewFallback_verdict raw r hr
      · rename_i data
        cases hrj : reviewFromJson raw data <;> rw [hrj] at hr <;> dsimp only at hr
        · exact parseReviewFallback_verdict raw r hr
        · cases hr
          exact reviewFromJson_verdict raw data _ hrj

theorem claim_C9_witness :
    (∃ r, _parse_review (fun _ => none) "ok" = some r) ∧
    (∀ r, _parse_review (fun _ => none) "ok" = some r →
        r.verdict = "approve" ∨ r.verdict = "concerns" ∨ r.verdict = "reject") :=
  claim_C9_parse_review (fun _ => none) "ok" (by decide)

/-! ## C3: character cleanliness -/

/-- A character that no splitlines boundary and no CR matches: the lines
    produced by pySplitlines consist of such characters only. -/
def cleanChar (c : Char) : Prop := isBoundaryChar c = false ∧ isCR c = false

def cleanLine (l : String) : Prop := ∀ c ∈ l.data, cleanChar c

theorem cleanChar_of_isDig (c : Char) (h : isDig c = true) : cleanChar c := by
  simp only [isDig, Bool.and_eq_true, decide_eq_true_eq] at h
  obtain ⟨h1, h2⟩ := h
  constructor
  · unfold isBoundaryChar
    have e1 : c ≠ '\n' := fun e => by subst e; simp at h1
    have e2 : c ≠ Char.ofNat 0x0b := fun e => by subst e; simp at h1
    have e3 : c ≠ Char.ofNat 0x0c := fun e => by subst e; simp at h1
    have e4 : c ≠ Char.ofNat 0x1c := fun e => by subst e; simp at h1
    have e5 : c ≠ Char.ofNat 0x1d := fun e => by subst e; simp at h1
    have e6 : c ≠ Char.ofNat 0x1e := fun e => by subst e; simp at h1
    have e7 : c ≠ Char.ofNat 0x85 := fun e => by subst e; simp at h2
    have e8 : c ≠ Char.ofNat 0x2028 := fun e => by subst e; simp at h2
    have e9 : c ≠ Char.ofNat 0x2029 := fun e => by subst e; simp at h2
    simp [e1, e2, e3, e4, e5, e6, e7, e8, e9]
  · unfold isCR
    have e : c ≠ Char.ofNat 0x0d := fun e => by subst e; simp at h1
    simp [e]

theorem clean_splitlinesCore_go : ∀ (n : Nat) (cs : List Char) (acc : List Char),
    cs.length ≤ n → (∀ c ∈ acc, cleanChar c) →
    ∀ l ∈ splitlinesCore false cs acc, ∀ c ∈ l, cleanChar c := by
  intro n
  induction n with
  | zero =>
    intro cs acc hlen hacc l hl c hc
    have : cs = [] := List.eq_nil_of_length_eq_zero (Nat.le_zero.mp hlen)
    subst this
    simp only [splitlinesCore] at hl
    split at hl
    · simp at hl
    · simp only [List.mem_singleton] at hl
      subst hl
      exact hacc c (List.mem_reverse.mp hc)
  | succ n ih =>
    intro cs acc hlen hacc l hl c hc
    cases cs with
    | nil =>
      simp only [splitlinesCore] at hl
      split at hl
      · simp at hl
      · simp only [List.mem_singleton] at hl
        subst hl
        exact hacc c (List.mem_reverse.mp hc)
    | cons a tail =>
      cases tail with
      | nil =>
        simp only [splitlinesCore] at hl
        by_cases h1 : isCR a = true
        · simp only [h1, if_true, Bool.false_eq_true, if_false, List.append_nil,
            List.mem_singleton] at hl
          subst hl
          exact hacc c (List.mem_reverse.mp hc)
        · simp only [h1, Bool.false_eq_true, if_false] at hl
          by_cases h2 : isBoundaryChar a = true
          · simp only [h2, if_true, Bool.false_eq_true, if_false,
              List.append_nil] at hl
            rcases List.mem_cons.mp hl with hl2 | hl2
            · subst hl2
              exact hacc c (List.mem_reverse.mp hc)
            · simp [splitlinesCore] at hl2
          · simp only [h2, Bool.false_eq_true, if_false, splitlinesCore] at hl
            rw [if_neg (List.cons_ne_nil a acc)] at hl
            simp only [List.mem_singleton] at hl
            subst hl
            rw [List.mem_reverse] at hc
            rcases List.mem_cons.mp hc with rfl | hc2
            · exact ⟨by simpa using h2, by simpa using h1⟩
            · exact hacc c hc2
      | cons d cs2 =>
        simp only [splitlinesCore] at hl
        by_cases h1 : isCR a = true
        · simp only [h1, if_true] at hl
          by_cases h2 : d = '\n'
          · simp only [h2, if_true, Bool.false_eq_true, if_false, List.append_nil,
              List.mem_cons] at hl
            rcases hl with hl2 | hl2
            · subst hl2
              exact hacc c (List.mem_reverse.mp hc)
            · exact ih cs2 [] (by simp at hlen ⊢; omega) (by simp) l hl2 c hc
          · simp only [h2, Bool.false_eq_true, if_false, List.append_nil,
              List.mem_cons] at hl
            rcases hl with hl2 | hl2
            · subst hl2
              exact hacc c (List.mem_reverse.mp hc)
            · exact ih (d :: cs2) [] (by simp at hlen ⊢; omega) (by simp) l hl2 c hc
        · simp only [h1, Bool.false_eq_true, if_false] at hl
          by_cases h2 : isBoundaryChar a = true
          · simp only [h2, if_true, Bool.false_eq_true, if_false,
              List.append_nil, List.mem_cons] at hl
            rcases hl with hl2 | hl2
            · subst hl2
              exact hacc c (List.mem_reverse.mp hc)
            · exact ih (d :: cs2) [] (by simp at hlen ⊢; omega) (by simp) l hl2 c hc
          · simp only [h2, Bool.false_eq_true, if_false] at hl
            refine ih (d :: cs2) (a :: acc) (by simp at hlen ⊢; omega) ?_ l hl c hc
            intro x hx
            rcases List.mem_cons.mp hx with rfl | hx2
            · exact ⟨by simpa using h2, by simpa using h1⟩
            · exact hacc x hx2

theorem clean_pySplitlines (s : String) : ∀ l ∈ pySplitlines s, cleanLine l := by
  intro l hl
  unfold pySplitlines at hl
  rw [List.mem_map] at hl
  obtain ⟨cs, hcs, rfl⟩ := hl
  intro c hc
  exact clean_splitlinesCore_go s.data.length s.data [] (le_refl _) (by simp) cs hcs c hc

/-! ## C3: facts about the hunk-header parser -/

theorem parseCommaDigits_sub (input : List Char) (ac : Option (List Char))
    (r : List Char) (h : parseCommaDigits input = some (ac, r)) :
    (∀ c ∈ r, c ∈ input) ∧
    (∀ d, ac = some d → d ≠ [] ∧ ∀ c ∈ d, isDig c = true) := by
  cases input with
  | nil =>
    simp only [parseCommaDigits] at h
    cases h
    exact ⟨by simp, by simp⟩
  | cons x xs =>
    by_cases hx : x = ','
    · subst hx
      simp only [parseCommaDigits] at h
      split at h
      · simp at h
      · rename_i hne
        cases h
        constructor
        · intro c hc
          exact List.mem_cons_of_mem _ ((List.dropWhile_sublist _).subset hc)
        · intro d hd
          cases hd
          exact ⟨hne, fun c hc => List.mem_takeWhile_imp hc⟩
    · have : parseCommaDigits (x :: xs) = some (none, x :: xs) := by
        cases x3 : x
        unfold parseCommaDigits
        split
        · rename_i heq
          exact absurd (by injection heq with h1 _; exact x3 ▸ h1.symm ▸ rfl) hx
        · rfl
      rw [this] at h
      cases h
      exact ⟨fun c hc => hc, by simp⟩

theorem parseNewSide_spec (a : List Char) (ac : Option (List Char))
    (r2 : List Char) (hdr : HunkHdr) (h : parseNewSide a ac r2 = some hdr) :
    hdr.a = a ∧ hdr.ac = ac ∧
    hdr.b ≠ [] ∧ (∀ c ∈ hdr.b, isDig c = true) ∧
    (∀ d, hdr.bc = some d → d ≠ [] ∧ ∀ c ∈ d, isDig c = true) ∧
    (∀ c ∈ hdr.tail, c ∈ r2) := by
  unfold parseNewSide at h
  split at h
  · simp at h
  · rename_i hbne
    cases hpc : parseCommaDigits (r2.dropWhile isDig) with
    | none =>
      rw [hpc] at h
      simp at h
    | some pr =>
      obtain ⟨bc, r3⟩ := pr
      rw [hpc] at h
      dsimp only at h
      split at h
      · rename_i t
        cases h
        obtain ⟨hsub, hdig⟩ := parseCommaDigits_sub _ _ _ hpc
        refine ⟨rfl, rfl, hbne, fun c hc => List.mem_takeWhile_imp hc, hdig, ?_⟩
        intro c hc
        have h1 : c ∈ (' ' :: '@' :: '@' :: t) := by simp [hc]
        exact (List.dropWhile_sublist _).subset (hsub c h1)
      · simp at h

theorem parseAfterDash_spec (r0 : List Char) (hdr : HunkHdr)
    (h : parseAfterDash r0 = some hdr) :
    hdr.a ≠ [] ∧ (∀ c ∈ hdr.a, isDig c = true) ∧
    (∀ d, hdr.ac = some d → d ≠ [] ∧ ∀ c ∈ d, isDig c = true) ∧
    hdr.b ≠ [] ∧ (∀ c ∈ hdr.b, isDig c = true) ∧
    (∀ d, hdr.bc = some d → d ≠ [] ∧ ∀ c ∈ d, isDig c = true) ∧
    (∀ c ∈ hdr.tail, c ∈ r0) := by
  unfold parseAfterDash at h
  split at h
  · simp at h
  · rename_i hane
    cases hpc : parseCommaDigits (r0.dropWhile isDig) with
    | none =>
      rw [hpc] at h
      simp at h
    | some pr =>
      obtain ⟨ac, r1⟩ := pr
      rw [hpc] at h
      dsimp only at h
      split at h
      · rename_i r2
        obtain ⟨ha, hac, hb, hbd, hbc, htail⟩ := parseNewSide_spec _ _ _ _ h
        obtain ⟨hsub, hdig⟩ := parseCommaDigits_sub _ _ _ hpc
        refine ⟨ha ▸ hane, ?_, hac ▸ hdig, hb, hbd, hbc, ?_⟩
        · intro c hc
          rw [ha] at hc
          exact List.mem_takeWhile_imp hc
        · intro c hc
          have h1 : c ∈ (' ' :: '+' :: r2) := by simp [htail c hc]
          exact (List.dropWhile_sublist _).subset (hsub c h1)
      · simp at h

theorem parseHunkHdr_spec (cs : List Char) (hdr : HunkHdr)
    (h : parseHunkHdr cs = some hdr) :
    hdr.a ≠ [] ∧ (∀ c ∈ hdr.a, isDig c = true) ∧
    (∀ d, hdr.ac = some d → d ≠ [] ∧ ∀ c ∈ d, isDig c = true) ∧
    hdr.b ≠ [] ∧ (∀ c ∈ hdr.b, isDig c = true) ∧
    (∀ d, hdr.bc = some d → d ≠ [] ∧ ∀ c ∈ d, isDig c = true) ∧
    (∀ c ∈ hdr.tail, c ∈ cs) := by
  unfold parseHunkHdr at h
  split at h
  · rename_i r0
    obtain ⟨h1, h2, h3, h4, h5, h6, h7⟩ := parseAfterDash_spec r0 hdr h
    exact ⟨h1, h2, h3, h4, h5, h6, fun c hc => by simp [h7 c hc]⟩
  · simp at h

/-! ## C3: the rewritten header parses back -/

theorem digrun (a : List Char) (c : Char) (r : List Char)
    (had : ∀ x ∈ a, isDig x = true) (hc : isDig c = false) :
    (a ++ c :: r).takeWhile isDig = a ∧ (a ++ c :: r).dropWhile isDig = c :: r := by
  constructor
  · rw [takeWhile_append_all _ _ _ had, takeWhile_cons_false _ _ _ hc,
      List.append_nil]
  · rw [dropWhile_append_all _ _ _ had, dropWhile_cons_false _ _ _ hc]

theorem parseCommaDigits_comma (d : List Char) (c2 : Char) (r : List Char)
    (hd : ∀ x ∈ d, isDig x = true) (hdne : d ≠ []) (hc : isDig c2 = false) :
    parseCommaDigits (',' :: (d ++ c2 :: r)) = some (some d, c2 :: r) := by
  unfold parseCommaDigits
  simp [(digrun d c2 r hd hc).1, (digrun d c2 r hd hc).2, hdne]

theorem parseHunkHdr_render (a b t : List Char) (oc nc : Nat)
    (hane : a ≠ []) (had : ∀ c ∈ a, isDig c = true)
    (hbne : b ≠ []) (hbd : ∀ c ∈ b, isDig c = true) :
    parseHunkHdr (renderHdr a oc b nc t).data =
      some ⟨a, some (natDigits oc), b, some (natDigits nc), t⟩ := by
  have hstep : parseHunkHdr (renderHdr a oc b nc t).data =
      parseAfterDash (a ++ ',' :: (natDigits oc ++ ' ' :: '+' ::
        (b ++ ',' :: (natDigits nc ++ ' ' :: '@' :: '@' :: t)))) := rfl
  rw [hstep]
  unfold parseAfterDash
  rw [(digrun a ',' _ had (by decide)).1, (digrun a ',' _ had (by decide)).2]
  rw [if_neg hane]
  rw [parseCommaDigits_comma (natDigits oc) ' ' _ (natDigits_all_digits oc)
      (natDigits_ne_nil oc) (by decide)]
  show parseNewSide a (some (natDigits oc))
      (b ++ ',' :: (natDigits nc ++ ' ' :: '@' :: '@' :: t)) = _
  unfold parseNewSide
  rw [(digrun b ',' _ hbd (by decide)).1, (digrun b ',' _ hbd (by decide)).2]
  rw [if_neg hbne]
  rw [parseCommaDigits_comma (natDigits nc) ' ' _ (natDigits_all_digits nc)
      (natDigits_ne_nil nc) (by decide)]
  rfl

theorem rewriteHdr_starts (l : String) (body : List String)
    (h : pyStarts l "@@" = true) :
    pyStarts (rewriteHdr l body) "@@" = true := by
  unfold rewriteHdr
  cases hp : parseHunkHdr l.data with
  | none => exact h
  | some hdr => simp [pyStarts, renderHdr, List.isPrefixOf]

theorem rewriteHdr_stable (l : String) (body : List String) :
    rewriteHdr (rewriteHdr l body) body = rewriteHdr l body := by
  cases hp : parseHunkHdr l.data with
  | none =>
    have h1 : rewriteHdr l body = l := by
      unfold rewriteHdr
      rw [hp]
    rw [h1]
    exact h1
  | some hdr =>
    obtain ⟨hane, had, _, hbne, hbd, _, _⟩ := parseHunkHdr_spec _ _ hp
    have h1 : rewriteHdr l body =
        renderHdr hdr.a (origCount body) hdr.b (newCount body) hdr.tail := by
      unfold rewriteHdr
      rw [hp]
    rw [h1]
    unfold rewriteHdr
    rw [parseHunkHdr_render hdr.a hdr.b hdr.tail (origCount body) (newCount body)
        hane had hbne hbd]

theorem cleanChar_symbols :
    cleanChar '@' ∧ cleanChar ' ' ∧ cleanChar '-' ∧ cleanChar ',' ∧
      cleanChar '+' := by
  refine ⟨⟨?_, ?_⟩, ⟨?_, ?_⟩, ⟨?_, ?_⟩, ⟨?_, ?_⟩, ⟨?_, ?_⟩⟩ <;> decide

theorem rewriteHdr_clean (l : String) (body : List String) (h : cleanLine l) :
    cleanLine (rewriteHdr l body) := by
  unfold rewriteHdr
  cases hp : parseHunkHdr l.data with
  | none => exact h
  | some hdr =>
    obtain ⟨_, had, _, _, hbd, _, htail⟩ := parseHunkHdr_spec _ _ hp
    intro c hc
    simp only [renderHdr, List.mem_cons, List.mem_append] at hc
    rcases hc with rfl | rfl | rfl | rfl | hc
    · exact cleanChar_symbols.1
    · exact cleanChar_symbols.1
    · exact cleanChar_symbols.2.1
    · exact cleanChar_symbols.2.2.1
    · rcases hc with hc | hc
      · exact cleanChar_of_isDig c (had c hc)
      · rcases hc with rfl | hc
        · exact cleanChar_symbols.2.2.2.1
        · rcases hc with hc | hc
          · exact cleanChar_of_isDig c (natDigits_all_digits _ c hc)
          · rcases hc with rfl | hc
            · exact cleanChar_symbols.2.1
            · rcases hc with rfl | hc
              · exact cleanChar_symbols.2.2.2.2
              · rcases hc with hc | hc
                · exact cleanChar_of_isDig c (hbd c hc)
                · rcases hc with rfl | hc
                  · exact cleanChar_symbols.2.2.2.1
                  · rcases hc with hc | hc
                    · exact cleanChar_of_isDig c (natDigits_all_digits _ c hc)
                    · rcases hc with rfl | rfl | rfl | hc
                      · exact cleanChar_symbols.2.1
                      · exact cleanChar_symbols.1
                      · exact cleanChar_symbols.1
                      · exact h c (htail c hc)

/-! ## C3: idempotence of the line-level pass -/

theorem head_dropWhile {α : Type} (p : α → Bool) (ls : List α) (r : α)
    (rest : List α) (h : ls.dropWhile p = r :: rest) : p r = false := by
  induction ls with
  | nil => simp at h
  | cons x xs ih =>
    by_cases hx : p x = true
    · rw [List.dropWhile_cons, if_pos hx] at h
      exact ih h
    · rw [List.dropWhile_cons, if_neg hx] at h
      cases h
      exact Bool.not_eq_true _ ▸ by simpa using hx

theorem isHunkBodyEnd_of_starts (m : String) (h : pyStarts m "@@" = true) :
    isHunkBodyEnd m = true := by
  simp [isHunkBodyEnd, h]

theorem processLines_head_bodyEnd (r : String) (rest : List String)
    (h : isHunkBodyEnd r = true) :
    ∃ m M, processLines (r :: rest) = m :: M ∧ isHunkBodyEnd m = true := by
  rw [processLines_cons]
  by_cases hr : pyStarts r "@@" = true
  · rw [if_pos hr]
    exact ⟨_, _, rfl, isHunkBodyEnd_of_starts _ (rewriteHdr_starts r _ hr)⟩
  · rw [if_neg hr]
    exact ⟨r, _, rfl, h⟩

theorem mem_takeWhile_pred {α : Type} (p : α → Bool) (ls : List α) (x : α)
    (hx : x ∈ ls.takeWhile p) : p x = true := by
  induction ls with
  | nil => simp at hx
  | cons a as ih =>
    by_cases ha : p a = true
    · rw [List.takeWhile_cons, if_pos ha] at hx
      rcases List.mem_cons.mp hx with h | h
      · exact h ▸ ha
      · exact ih h
    · rw [takeWhile_cons_false _ _ _ (by simpa using ha)] at hx
      simp at hx

theorem bodyEnd_split (ls : List String) :
    ((ls.takeWhile (fun x => !(isHunkBodyEnd x)) ++
        processLines (ls.dropWhile (fun x => !(isHunkBodyEnd x)))).takeWhile
          (fun x => !(isHunkBodyEnd x)) =
      ls.takeWhile (fun x => !(isHunkBodyEnd x))) ∧
    ((ls.takeWhile (fun x => !(isHunkBodyEnd x)) ++
        processLines (ls.dropWhile (fun x => !(isHunkBodyEnd x)))).dropWhile
          (fun x => !(isHunkBodyEnd x)) =
      processLines (ls.dropWhile (fun x => !(isHunkBodyEnd x)))) := by
  have hbody : ∀ x ∈ ls.takeWhile (fun x => !(isHunkBodyEnd x)),
      (fun x => !(isHunkBodyEnd x)) x = true :=
    fun x hx => mem_takeWhile_pred _ ls x hx
  rw [takeWhile_append_all _ _ _ hbody, dropWhile_append_all _ _ _ hbody]
  cases hrest : ls.dropWhile (fun x => !(isHunkBodyEnd x)) with
  | nil => simp [processLines_nil]
  | cons r rest2 =>
    have hr : isHunkBodyEnd r = true := by
      have := head_dropWhile _ ls r rest2 hrest
      simpa using this
    obtain ⟨m, M, hm, hmend⟩ := processLines_head_bodyEnd r rest2 hr
    rw [hm]
    have hqm : (fun x => !(isHunkBodyEnd x)) m = false := by simp [hmend]
    rw [takeWhile_cons_false (fun x => !(isHunkBodyEnd x)) m M hqm,
      dropWhile_cons_false (fun x => !(isHunkBodyEnd x)) m M hqm]
    simp

theorem processLines_idem_go : ∀ (n : Nat) (L : List String), L.length ≤ n →
    processLines (processLines L) = processLines L := by
  intro n
  induction n with
  | zero =>
    intro L hlen
    have : L = [] := List.eq_nil_of_length_eq_zero (Nat.le_zero.mp hlen)
    subst this
    rfl
  | succ n ih =>
    intro L hlen
    cases L with
    | nil => rfl
    | cons l ls =>
      rw [processLines_cons]
      by_cases hl : pyStarts l "@@" = true
      · rw [if_pos hl]
        rw [processLines_cons]
        rw [if_pos (rewriteHdr_starts l _ hl)]
        rw [(bodyEnd_split ls).1, (bodyEnd_split ls).2]
        rw [rewriteHdr_stable]
        rw [ih (ls.dropWhile (fun x => !(isHunkBodyEnd x)))
            (le_trans (length_dropWhile_le' _ _) (by simp at hlen; omega))]
      · rw [if_neg hl]
        rw [processLines_cons, if_neg hl]
        rw [ih ls (by simp at hlen; omega)]

theorem processLines_idem (L : List String) :
    processLines (processLines L) = processLines L :=
  processLines_idem_go L.length L (le_refl _)

theorem takeWhile_append_pos {α : Type} (p : α → Bool) (xs ys : List α)
    (h : xs.dropWhile p ≠ []) :
    (xs ++ ys).takeWhile p = xs.takeWhile p ∧
    (xs ++ ys).dropWhile p = xs.dropWhile p ++ ys := by
  induction xs with
  | nil => simp at h
  | cons x xs ih =>
    by_cases hx : p x = true
    · rw [List.dropWhile_cons, if_pos hx] at h
      obtain ⟨h1, h2⟩ := ih h
      constructor
      · simp only [List.cons_append, List.takeWhile_cons, hx, if_true, h1]
      · simp only [List.cons_append, List.dropWhile_cons, hx, if_true, h2,
          List.dropWhile_cons, hx]
    · constructor
      · rw [List.cons_append, takeWhile_cons_false _ _ _ (by simpa using hx),
          takeWhile_cons_false _ _ _ (by simpa using hx)]
      · rw [List.cons_append, dropWhile_cons_false _ _ _ (by simpa using hx),
          dropWhile_cons_false _ _ _ (by simpa using hx), List.cons_append]

theorem counts_append_nilstr (B : List String) :
    origCount (B ++ [""]) = origCount B ∧ newCount (B ++ [""]) = newCount B := by
  constructor <;> simp [origCount, newCount, List.filter_append, pyStarts,
    List.isPrefixOf]

theorem rewriteHdr_body_nilstr (l : String) (B : List String) :
    rewriteHdr l (B ++ [""]) = rewriteHdr l B := by
  unfold rewriteHdr
  cases hp : parseHunkHdr l.data with
  | none => rfl
  | some hdr => rw [(counts_append_nilstr B).1, (counts_append_nilstr B).2]

theorem nilstr_passes : (fun x => !(isHunkBodyEnd x)) "" = true := by decide

theorem processLines_append_nilstr_go : ∀ (n : Nat) (L : List String),
    L.length ≤ n → processLines (L ++ [""]) = processLines L ++ [""] := by
  intro n
  induction n with
  | zero =>
    intro L hlen
    have : L = [] := List.eq_nil_of_length_eq_zero (Nat.le_zero.mp hlen)
    subst this
    rw [processLines_nil, List.nil_append, processLines_cons]
    simp [processLines_nil, pyStarts, List.isPrefixOf]
  | succ n ih =>
    intro L hlen
    cases L with
    | nil =>
      rw [processLines_nil, List.nil_append, processLines_cons]
      simp [processLines_nil, pyStarts, List.isPrefixOf]
    | cons l ls =>
      rw [List.cons_append, processLines_cons, processLines_cons]
      by_cases hl : pyStarts l "@@" = true
      · rw [if_pos hl, if_pos hl]
        by_cases hdw : ls.dropWhile (fun x => !(isHunkBodyEnd x)) = []
        · have htw : ls.takeWhile (fun x => !(isHunkBodyEnd x)) = ls := by
            have := List.takeWhile_append_dropWhile
              (p := fun x => !(isHunkBodyEnd x)) (l := ls)
            rw [hdw, List.append_nil] at this
            exact this
          have hall : ∀ x ∈ ls, (fun x => !(isHunkBodyEnd x)) x = true := by
            intro x hx
            exact mem_takeWhile_pred _ ls x (by rw [htw]; exact hx)
          have htw2 : (ls ++ [""]).takeWhile (fun x => !(isHunkBodyEnd x)) =
              ls ++ [""] := by
            rw [takeWhile_append_all _ _ _ hall]
            simp [nilstr_passes]
          have hdw2 : (ls ++ [""]).dropWhile (fun x => !(isHunkBodyEnd x)) = [] := by
            rw [dropWhile_append_all _ _ _ hall]
            simp [nilstr_passes]
          rw [htw, htw2, hdw, hdw2, processLines_nil]
          rw [rewriteHdr_body_nilstr]
          simp
        · obtain ⟨ht, hd⟩ := takeWhile_append_pos
            (fun x => !(isHunkBodyEnd x)) ls [""] hdw
          rw [ht, hd]
          rw [ih (ls.dropWhile (fun x => !(isHunkBodyEnd x)))
              (le_trans (length_dropWhile_le' _ _) (by simp at hlen; omega))]
          simp
      · rw [if_neg hl, if_neg hl]
        rw [ih ls (by simp at hlen; omega)]
        simp

theorem processLines_append_nilstr (L : List String) :
    processLines (L ++ [""]) = processLines L ++ [""] :=
  processLines_append_nilstr_go L.length L (le_refl _)

/-! ## C3: string-level lemmas for the sanitize round trip -/

theorem string_mk_data (s : String) : String.mk s.data = s := rfl

theorem append_assoc_str (a b c : String) : (a ++ b) ++ c = a ++ (b ++ c) := by
  apply String.ext
  simp only [String.data_append, List.append_assoc]

theorem mem_of_getLast_some {α : Type} (l : List α) (a : α)
    (h : l.getLast? = some a) : a ∈ l := by
  rcases l with _ | ⟨x, xs⟩
  · simp at h
  · have h2 := List.getLast_mem (l := x :: xs) (by simp)
    rw [List.getLast?_eq_getLast _ (by simp)] at h
    rw [Option.some_inj.mp h] at h2
    exact h2

theorem joinNL_cons2 (a b : String) (rest : List String) :
    joinNL (a :: b :: rest) = a ++ "\n" ++ joinNL (b :: rest) := rfl

theorem joinNL_concat (M : List String) (l : String) (h : M ≠ []) :
    joinNL (M ++ [l]) = joinNL M ++ "\n" ++ l := by
  induction M with
  | nil => exact absurd rfl h
  | cons a as ih =>
    cases as with
    | nil => rfl
    | cons b bs =>
      have h1 : joinNL ((a :: b :: bs) ++ [l]) =
          a ++ "\n" ++ joinNL ((b :: bs) ++ [l]) := rfl
      rw [h1, ih (List.cons_ne_nil b bs), joinNL_cons2]
      simp [append_assoc_str]

theorem mem_joinNL_data (out : List String) (c : Char)
    (hc : c ∈ (joinNL out).data) : c = '\n' ∨ ∃ l ∈ out, c ∈ l.data := by
  induction out with
  | nil => simp [joinNL] at hc
  | cons a as ih =>
    cases as with
    | nil =>
      have h1 : joinNL [a] = a := rfl
      rw [h1] at hc
      exact Or.inr ⟨a, List.mem_cons_self a [], hc⟩
    | cons b bs =>
      rw [joinNL_cons2, String.data_append, String.data_append] at hc
      rcases List.mem_append.mp hc with h | h
      · rcases List.mem_append.mp h with h | h
        · exact Or.inr ⟨a, List.mem_cons_self a (b :: bs), h⟩
        · left
          simpa using h
      · rcases ih h with h | ⟨l, hl, hcl⟩
        · exact Or.inl h
        · exact Or.inr ⟨l, List.mem_cons_of_mem a hl, hcl⟩

theorem pyEnds_NL (s : String) :
    pyEnds s "\n" = true ↔ s.data.getLast? = some '\n' := by
  rw [← List.head?_reverse]
  unfold pyEnds
  cases h : s.data.reverse with
  | nil =>
    have h2 : (("\n" : String)).data.reverse = ['\n'] := rfl
    rw [h2]
    simp
  | cons x xs =>
    have h2 : (("\n" : String)).data.reverse = ['\n'] := rfl
    rw [h2, List.isPrefixOf_cons₂, List.isPrefixOf_nil_left, Bool.and_true,
      List.head?_cons]
    simp only [beq_iff_eq, Option.some_inj]
    exact eq_comm

theorem pyEnds_snoc_NL (x : String) :
    pyEnds (x ++ "\n") ("\n" ++ "\n") = pyEnds x "\n" := by
  unfold pyEnds
  rw [String.data_append x "\n"]
  have h2 : (("\n" : String)).data = ['\n'] := rfl
  rw [h2]
  have h1 : (("\n" ++ "\n" : String)).data.reverse = '\n' :: '\n' :: [] := rfl
  rw [h1, List.reverse_append]
  have h3 : (['\n'] : List Char).reverse = ['\n'] := rfl
  rw [h3, List.singleton_append, List.isPrefixOf_cons₂]
  have h4 : (('\n' : Char) == '\n') = true := rfl
  rw [h4, Bool.true_and]

theorem normalizeCR_go_id : ∀ cs : List Char, (∀ c ∈ cs, isCR c = false) →
    normalizeCR.go cs = cs := by
  intro cs
  induction cs with
  | nil => intro _; rfl
  | cons c cs ih =>
    intro h
    cases cs with
    | nil =>
      show (if isCR c then ['\n'] else [c]) = [c]
      rw [if_neg (by simp [h c (List.mem_cons_self c [])])]
    | cons d cs2 =>
      show (if isCR c then
          (if d = '\n' then '\n' :: normalizeCR.go cs2
           else '\n' :: normalizeCR.go (d :: cs2))
        else c :: normalizeCR.go (d :: cs2)) = c :: d :: cs2
      rw [if_neg (by simp [h c (List.mem_cons_self c (d :: cs2))])]
      rw [ih (fun x hx => h x (List.mem_cons_of_mem c hx))]

theorem normalizeCR_id (s : String) (h : ∀ c ∈ s.data, isCR c = false) :
    normalizeCR s = s := by
  unfold normalizeCR
  rw [normalizeCR_go_id s.data h]

theorem splitlinesCore_step (keep : Bool) (x : Char) (cs acc : List Char)
    (hxcr : isCR x = false) (hxb : isBoundaryChar x = false) (hne : cs ≠ []) :
    splitlinesCore keep (x :: cs) acc = splitlinesCore keep cs (x :: acc) := by
  cases cs with
  | nil => exact absurd rfl hne
  | cons d cs2 =>
    show (if isCR x then _ else if isBoundaryChar x then _
        else splitlinesCore keep (d :: cs2) (x :: acc)) = _
    rw [if_neg (by simp [hxcr]), if_neg (by simp [hxb])]

theorem splitlinesCore_nl_split (rest acc : List Char) :
    splitlinesCore false ('\n' :: rest) acc =
      acc.reverse :: splitlinesCore false rest [] := by
  cases rest with
  | nil =>
    show (if isCR '\n' then [acc.reverse ++ (if false then ['\n'] else [])]
        else if isBoundaryChar '\n' then
          (acc.reverse ++ (if false then ['\n'] else [])) ::
            splitlinesCore false [] []
        else splitlinesCore false [] ('\n' :: acc)) = _
    rw [if_neg (by decide), if_pos (by decide)]
    simp
  | cons r rs =>
    show (if isCR '\n' then _
        else if isBoundaryChar '\n' then
          (acc.reverse ++ (if false then ['\n'] else [])) ::
            splitlinesCore false (r :: rs) []
        else splitlinesCore false (r :: rs) ('\n' :: acc)) = _
    rw [if_neg (by decide), if_pos (by decide)]
    simp

theorem splitlinesCore_line (l : List Char) : ∀ (acc rest : List Char),
    (∀ c ∈ l, cleanChar c) →
    splitlinesCore false (l ++ '\n' :: rest) acc =
      (acc.reverse ++ l) :: splitlinesCore false rest [] := by
  induction l with
  | nil =>
    intro acc rest _
    rw [List.nil_append, splitlinesCore_nl_split]
    simp
  | cons x l2 ih =>
    intro acc rest hcl
    have hx : cleanChar x := hcl x (List.mem_cons_self x l2)
    rw [List.cons_append,
      splitlinesCore_step false x (l2 ++ '\n' :: rest) acc hx.2 hx.1 (by simp),
      ih (x :: acc) rest (fun c hc => hcl c (List.mem_cons_of_mem x hc))]
    simp

theorem pySplitlines_joinNL (out : List String) : out ≠ [] →
    (∀ l ∈ out, cleanLine l) →
    pySplitlines (joinNL out ++ "\n") = out := by
  induction out with
  | nil => intro h _; exact absurd rfl h
  | cons a as ih =>
    intro _ hcl
    cases as with
    | nil =>
      have h1 : joinNL [a] = a := rfl
      rw [h1]
      unfold pySplitlines
      rw [String.data_append]
      have h3 : splitlinesCore false (a.data ++ '\n' :: []) [] =
          (List.reverse [] ++ a.data) :: splitlinesCore false [] [] :=
        splitlinesCore_line a.data [] [] (hcl a (List.mem_cons_self a []))
      have h4 : ("\n" : String).data = '\n' :: [] := rfl
      rw [h4, h3]
      show [String.mk (List.reverse [] ++ a.data)] = [a]
      simp [string_mk_data]
    | cons b bs =>
      rw [joinNL_cons2]
      unfold pySplitlines
      have h2 : ((a ++ "\n" ++ joinNL (b :: bs)) ++ "\n").data =
          a.data ++ '\n' :: ((joinNL (b :: bs) ++ "\n").data) := by
        have h4 : ("\n" : String).data = ['\n'] := rfl
        simp [String.data_append, h4]
      rw [h2]
      rw [splitlinesCore_line a.data [] _ (hcl a (List.mem_cons_self a (b :: bs)))]
      rw [List.map_cons]
      have h5 := ih (List.cons_ne_nil b bs)
        (fun l hl => hcl l (List.mem_cons_of_mem a hl))
      unfold pySplitlines at h5
      rw [h5]
      simp [string_mk_data]

theorem string_data_ne_nil (l : String) (h : l ≠ "") : l.data ≠ [] := by
  intro hd
  exact h (String.ext hd)

theorem joinNL_ends_NL (out : List String) (hcl : ∀ l ∈ out, cleanLine l)
    (h : pyEnds (joinNL out) "\n" = true) :
    ∃ M, out = M ++ [""] ∧ M ≠ [] := by
  have hlast := (pyEnds_NL _).mp h
  have hnotin : ∀ l ∈ out, ('\n' : Char) ∉ l.data := by
    intro l hl hmem
    have hc := hcl l hl '\n' hmem
    have : isBoundaryChar '\n' = true := by decide
    rw [hc.1] at this
    exact Bool.false_ne_true this
  rcases List.eq_nil_or_concat out with rfl | ⟨M, l, hout⟩
  · have : joinNL ([] : List String) = "" := rfl
    rw [this] at hlast
    simp at hlast
  · rw [List.concat_eq_append] at hout
    subst hout
    rcases eq_or_ne M [] with rfl | hM
    · exfalso
      have h1 : joinNL ([] ++ [l]) = l := rfl
      rw [h1] at hlast
      exact hnotin l (by simp) (mem_of_getLast_some _ _ hlast)
    · rcases eq_or_ne l "" with rfl | hl
      · exact ⟨M, rfl, hM⟩
      · exfalso
        rw [joinNL_concat M l hM, String.data_append,
          List.getLast?_append_of_ne_nil _ (string_data_ne_nil l hl)] at hlast
        exact hnotin l (by simp) (mem_of_getLast_some _ _ hlast)

/-! ## C3: cleanliness and length of the processed lines -/

theorem processLines_clean_go : ∀ (n : Nat) (L : List String), L.length ≤ n →
    (∀ l ∈ L, cleanLine l) → ∀ l ∈ processLines L, cleanLine l := by
  intro n
  induction n with
  | zero =>
    intro L hlen _
    rw [List.eq_nil_of_length_eq_zero (Nat.le_zero.mp hlen)]
    intro l hl
    simp [processLines_nil] at hl
  | succ n ih =>
    intro L hlen hcl
    cases L with
    | nil =>
      intro l hl
      simp [processLines_nil] at hl
    | cons a ls =>
      rw [processLines_cons]
      by_cases hl : pyStarts a "@@" = true
      · rw [if_pos hl]
        intro l hmem
        rcases List.mem_cons.mp hmem with rfl | hmem
        · exact rewriteHdr_clean a _ (hcl a (List.mem_cons_self a ls))
        · rcases List.mem_append.mp hmem with hmem | hmem
          · exact hcl l (List.mem_cons_of_mem a
              ((List.takeWhile_sublist _).subset hmem))
          · exact ih _ (le_trans (length_dropWhile_le' _ _) (by simp at hlen; omega))
              (fun x hx => hcl x (List.mem_cons_of_mem a
                ((List.dropWhile_sublist _).subset hx))) l hmem
      · rw [if_neg hl]
        intro l hmem
        rcases List.mem_cons.mp hmem with rfl | hmem
        · exact hcl l (List.mem_cons_self l ls)
        · exact ih ls (by simp at hlen; omega)
            (fun x hx => hcl x (List.mem_cons_of_mem a hx)) l hmem

theorem processLines_clean (L : List String) (hcl : ∀ l ∈ L, cleanLine l) :
    ∀ l ∈ processLines L, cleanLine l :=
  processLines_clean_go L.length L (le_refl _) hcl

theorem processLines_length_go : ∀ (n : Nat) (L : List String), L.length ≤ n →
    (processLines L).length = L.length := by
  intro n
  induction n with
  | zero =>
    intro L hlen
    rw [List.eq_nil_of_length_eq_zero (Nat.le_zero.mp hlen)]
    rfl
  | succ n ih =>
    intro L hlen
    cases L with
    | nil => rfl
    | cons a ls =>
      rw [processLines_cons]
      by_cases hl : pyStarts a "@@" = true
      · rw [if_pos hl]
        have hsplit := congrArg List.length
          (List.takeWhile_append_dropWhile (p := fun x => !(isHunkBodyEnd x)) (l := ls))
        rw [List.length_append] at hsplit
        simp only [List.length_cons, List.length_append]
        rw [ih _ (le_trans (length_dropWhile_le' _ _) (by simp at hlen; omega))]
        omega
      · rw [if_neg hl]
        simp only [List.length_cons]
        rw [ih ls (by simp at hlen; omega)]

theorem processLines_length (L : List String) :
    (processLines L).length = L.length :=
  processLines_length_go L.length L (le_refl _)

theorem processLines_eq_nil (L : List String) (h : processLines L = []) :
    L = [] := by
  cases L with
  | nil => rfl
  | cons a ls =>
    exfalso
    rw [processLines_cons] at h
    by_cases hl : pyStarts a "@@" = true
    · rw [if_pos hl] at h
      exact List.cons_ne_nil _ _ h
    · rw [if_neg hl] at h
      exact List.cons_ne_nil _ _ h

/-! ## C3: the checked properties of the sanitized output -/

/-- One output line against its input line: either copied unchanged, or a
    parsed hunk header whose start numbers and trailing hint text are
    preserved. -/
def hdrPresB (x y : String) : Bool :=
  (x == y) ||
  (match parseHunkHdr x.data, parseHunkHdr y.data with
   | some h1, some h2 => h1.a == h2.a && h1.b == h2.b && h1.tail == h2.tail
   | _, _ => false)

/-- Every `@@` line that the hunk-header regex matches declares exactly the
    recounted sizes of its body (the lines up to the next header). -/
def hunkCountsOKB : List String → Bool
  | [] => true
  | l :: ls =>
    (match parseHunkHdr l.data with
     | none => true
     | some h =>
       h.ac == some (natDigits (origCount
         (ls.takeWhile (fun x => !(isHunkBodyEnd x))))) &&
       h.bc == some (natDigits (newCount
         (ls.takeWhile (fun x => !(isHunkBodyEnd x)))))) &&
    hunkCountsOKB ls

/-- Pointwise header preservation from the sanitizer input lines to the
    lines of the sanitized string: at most one trailing blank line is
    absorbed, and empty input produces the single blank line. -/
def hdrsPreserved (L O : List String) : Bool :=
  (decide (O.length = L.length) || decide (O.length + 1 = L.length) ||
    (decide (L = []) && decide (O = [""]))) &&
  (List.zipWith hdrPresB L O).all id

theorem parseHunkHdr_atat (cs : List Char) (hdr : HunkHdr)
    (h : parseHunkHdr cs = some hdr) : List.isPrefixOf ['@', '@'] cs = true := by
  unfold parseHunkHdr at h
  split at h
  · rw [List.isPrefixOf_cons₂, List.isPrefixOf_cons₂, List.isPrefixOf_nil_left]
    rfl
  · simp at h

theorem parse_none_of_bodyEnd_false (x : String) (h : isHunkBodyEnd x = false) :
    parseHunkHdr x.data = none := by
  cases hp : parseHunkHdr x.data with
  | none => rfl
  | some hdr =>
    exfalso
    have hs := parseHunkHdr_atat x.data hdr hp
    have h2 : pyStarts x "@@" = true := hs
    unfold isHunkBodyEnd at h
    rw [h2] at h
    simp at h

theorem hunkCountsOKB_append_body (X : List String) : ∀ body : List String,
    (∀ x ∈ body, isHunkBodyEnd x = false) → hunkCountsOKB X = true →
    hunkCountsOKB (body ++ X) = true := by
  intro body
  induction body with
  | nil =>
    intro _ h
    simpa using h
  | cons x body2 ih =>
    intro hb hX
    rw [List.cons_append]
    simp only [hunkCountsOKB, Bool.and_eq_true]
    constructor
    · rw [parse_none_of_bodyEnd_false x (hb x (List.mem_cons_self x body2))]
    · exact ih (fun y hy => hb y (List.mem_cons_of_mem x hy)) hX

theorem hunkCountsOKB_processLines_go : ∀ (n : Nat) (L : List String),
    L.length ≤ n → hunkCountsOKB (processLines L) = true := by
  intro n
  induction n with
  | zero =>
    intro L hlen
    rw [List.eq_nil_of_length_eq_zero (Nat.le_zero.mp hlen)]
    rfl
  | succ n ih =>
    intro L hlen
    cases L with
    | nil => rfl
    | cons l ls =>
      rw [processLines_cons]
      by_cases hl : pyStarts l "@@" = true
      · rw [if_pos hl]
        have hbody_all : ∀ x ∈ ls.takeWhile (fun x => !(isHunkBodyEnd x)),
            isHunkBodyEnd x = false := by
          intro x hx
          have := mem_takeWhile_pred _ ls x hx
          simpa using this
        have htail : hunkCountsOKB
            ((ls.takeWhile (fun x => !(isHunkBodyEnd x))) ++
              processLines (ls.dropWhile (fun x => !(isHunkBodyEnd x)))) = true :=
          hunkCountsOKB_append_body _ _ hbody_all
            (ih _ (le_trans (length_dropWhile_le' _ _) (by simp at hlen; omega)))
        simp only [hunkCountsOKB, Bool.and_eq_true]
        refine ⟨?_, htail⟩
        cases hp : parseHunkHdr l.data with
        | none =>
          have h1 : rewriteHdr l (ls.takeWhile (fun x => !(isHunkBodyEnd x))) = l := by
            unfold rewriteHdr
            rw [hp]
          rw [h1, hp]
        | some hdr =>
          have h1 : rewriteHdr l (ls.takeWhile (fun x => !(isHunkBodyEnd x))) =
              renderHdr hdr.a (origCount (ls.takeWhile (fun x => !(isHunkBodyEnd x))))
                hdr.b (newCount (ls.takeWhile (fun x => !(isHunkBodyEnd x))))
                hdr.tail := by
            unfold rewriteHdr
            rw [hp]
          obtain ⟨ha, had, _, hb, hbd, _, _⟩ := parseHunkHdr_spec l.data hdr hp
          have h2 := parseHunkHdr_render hdr.a hdr.b hdr.tail
            (origCount (ls.takeWhile (fun x => !(isHunkBodyEnd x))))
            (newCount (ls.takeWhile (fun x => !(isHunkBodyEnd x))))
            ha had hb hbd
          rw [h1, h2, (bodyEnd_split ls).1]
          simp
      · rw [if_neg hl]
        have hend : isHunkBodyEnd l = false ∨ parseHunkHdr l.data = none := by
          cases hp : parseHunkHdr l.data with
          | none => exact Or.inr rfl
          | some hdr =>
            have h2 : pyStarts l "@@" = true := parseHunkHdr_atat l.data hdr hp
            exact absurd h2 hl
        simp only [hunkCountsOKB, Bool.and_eq_true]
        constructor
        · have hpn : parseHunkHdr l.data = none := by
            rcases hend with h | h
            · exact parse_none_of_bodyEnd_false l h
            · exact h
          rw [hpn]
        · exact ih ls (by simp at hlen; omega)

theorem hunkCountsOKB_processLines (L : List String) :
    hunkCountsOKB (processLines L) = true :=
  hunkCountsOKB_processLines_go L.length L (le_refl _)

theorem hunkCountsOKB_drop_nilstr : ∀ M : List String,
    hunkCountsOKB (M ++ [""]) = true → hunkCountsOKB M = true := by
  intro M
  induction M with
  | nil => intro _; rfl
  | cons l M2 ih =>
    intro h
    rw [List.cons_append] at h
    simp only [hunkCountsOKB, Bool.and_eq_true] at h ⊢
    obtain ⟨h1, h2⟩ := h
    refine ⟨?_, ih h2⟩
    cases hp : parseHunkHdr l.data with
    | none => rfl
    | some hdr =>
      rw [hp] at h1
      have h1b : (hdr.ac == some (natDigits (origCount
            ((M2 ++ [""]).takeWhile (fun x => !(isHunkBodyEnd x))))) &&
          hdr.bc == some (natDigits (newCount
            ((M2 ++ [""]).takeWhile (fun x => !(isHunkBodyEnd x)))))) = true := h1
      show (hdr.ac == some (natDigits (origCount
            (M2.takeWhile (fun x => !(isHunkBodyEnd x))))) &&
          hdr.bc == some (natDigits (newCount
            (M2.takeWhile (fun x => !(isHunkBodyEnd x)))))) = true
      by_cases hdw : M2.dropWhile (fun x => !(isHunkBodyEnd x)) = []
      · have htw : M2.takeWhile (fun x => !(isHunkBodyEnd x)) = M2 := by
          have := List.takeWhile_append_dropWhile
            (p := fun x => !(isHunkBodyEnd x)) (l := M2)
          rw [hdw, List.append_nil] at this
          exact this
        have hall : ∀ x ∈ M2, (fun x => !(isHunkBodyEnd x)) x = true := by
          intro x hx
          exact mem_takeWhile_pred _ M2 x (by rw [htw]; exact hx)
        have htw2 : (M2 ++ [""]).takeWhile (fun x => !(isHunkBodyEnd x)) =
            M2 ++ [""] := by
          rw [takeWhile_append_all _ _ _ hall]
          simp [nilstr_passes]
        rw [htw2, (counts_append_nilstr M2).1, (counts_append_nilstr M2).2] at h1b
        rw [htw]
        exact h1b
      · obtain ⟨ht, _⟩ := takeWhile_append_pos
          (fun x => !(isHunkBodyEnd x)) M2 [""] hdw
        rw [ht] at h1b
        exact h1b

theorem hdrPresB_rewrite (l : String) (body : List String) :
    hdrPresB l (rewriteHdr l body) = true := by
  cases hp : parseHunkHdr l.data with
  | none =>
    have h1 : rewriteHdr l body = l := by
      unfold rewriteHdr
      rw [hp]
    simp [hdrPresB, h1]
  | some hdr =>
    have h1 : rewriteHdr l body =
        renderHdr hdr.a (origCount body) hdr.b (newCount body) hdr.tail := by
      unfold rewriteHdr
      rw [hp]
    obtain ⟨ha, had, _, hb, hbd, _, _⟩ := parseHunkHdr_spec l.data hdr hp
    have h2 := parseHunkHdr_render hdr.a hdr.b hdr.tail
      (origCount body) (newCount body) ha had hb hbd
    simp [hdrPresB, h1, hp, h2]

theorem zip_hdrPresB_self : ∀ xs : List String,
    (List.zipWith hdrPresB xs xs).all id = true := by
  intro xs
  induction xs with
  | nil => rfl
  | cons x xs ih =>
    rw [List.zipWith_cons_cons, List.all_cons, Bool.and_eq_true]
    exact ⟨by simp [hdrPresB], ih⟩

theorem processLines_pres_go : ∀ (n : Nat) (L : List String), L.length ≤ n →
    (List.zipWith hdrPresB L (processLines L)).all id = true := by
  intro n
  induction n with
  | zero =>
    intro L hlen
    rw [List.eq_nil_of_length_eq_zero (Nat.le_zero.mp hlen)]
    rfl
  | succ n ih =>
    intro L hlen
    cases L with
    | nil => rfl
    | cons l ls =>
      rw [processLines_cons]
      by_cases hl : pyStarts l "@@" = true
      · rw [if_pos hl]
        set t := ls.takeWhile (fun x => !(isHunkBodyEnd x)) with ht
        set d := ls.dropWhile (fun x => !(isHunkBodyEnd x)) with hd
        have hld : ls = t ++ d := by
          rw [ht, hd]
          exact (List.takeWhile_append_dropWhile
            (p := fun x => !(isHunkBodyEnd x)) (l := ls)).symm
        have hdlen : d.length ≤ ls.length := by
          rw [hd]
          exact length_dropWhile_le' _ _
        rw [hld]
        rw [List.zipWith_cons_cons,
          List.zipWith_append _ _ _ _ _ rfl,
          List.all_cons, List.all_append]
        simp only [Bool.and_eq_true]
        refine ⟨by simpa using hdrPresB_rewrite l t, ?_, ?_⟩
        · exact zip_hdrPresB_self _
        · exact ih _ (le_trans hdlen (by simp at hlen; omega))
      · rw [if_neg hl]
        rw [List.zipWith_cons_cons, List.all_cons, Bool.and_eq_true]
        exact ⟨by simp [hdrPresB], ih ls (by simp at hlen; omega)⟩

theorem processLines_pres (L : List String) :
    (List.zipWith hdrPresB L (processLines L)).all id = true :=
  processLines_pres_go L.length L (le_refl _)

theorem zipWith_all_front (f : String → String → Bool) :
    ∀ (L M : List String) (l : String),
    (List.zipWith f L (M ++ [l])).all id = true →
    (List.zipWith f L M).all id = true := by
  intro L
  induction L with
  | nil => intro M l _; rfl
  | cons a L2 ih =>
    intro M l h
    cases M with
    | nil => rfl
    | cons b M2 =>
      rw [List.cons_append, List.zipWith_cons_cons, List.all_cons,
        Bool.and_eq_true] at h
      rw [List.zipWith_cons_cons, List.all_cons, Bool.and_eq_true]
      exact ⟨h.1, ih M2 l h.2⟩

/-! ## C3: case analysis of the sanitize output string -/

theorem joinNL_noCR (out : List String) (hcl : ∀ l ∈ out, cleanLine l) :
    ∀ c ∈ ((joinNL out) ++ "\n").data, isCR c = false := by
  intro c hc
  rw [String.data_append] at hc
  rcases List.mem_append.mp hc with h | h
  · rcases mem_joinNL_data out c h with rfl | ⟨l, hl, hcl2⟩
    · decide
    · exact (hcl l hl c hcl2).2
  · have h2 : (("\n" : String)).data = ['\n'] := rfl
    rw [h2] at h
    have h3 := List.mem_singleton.mp h
    rw [h3]
    decide

theorem sanitize_diff_cases (D : String) :
    (processLines (pySplitlines (normalizeCR D)) = [] ∧ _sanitize_diff D = "\n") ∨
    (processLines (pySplitlines (normalizeCR D)) ≠ [] ∧
      pyEnds (joinNL (processLines (pySplitlines (normalizeCR D)))) "\n" = false ∧
      _sanitize_diff D =
        joinNL (processLines (pySplitlines (normalizeCR D))) ++ "\n") ∨
    (∃ M, processLines (pySplitlines (normalizeCR D)) = M ++ [""] ∧ M ≠ [] ∧
      _sanitize_diff D = joinNL M ++ "\n") := by
  by_cases hE : pyEnds (joinNL (processLines (pySplitlines (normalizeCR D)))) "\n" = true
  · right; right
    have hclean := processLines_clean (pySplitlines (normalizeCR D))
      (clean_pySplitlines _)
    obtain ⟨M, hM, hMne⟩ := joinNL_ends_NL _ hclean hE
    refine ⟨M, hM, hMne, ?_⟩
    have hs : _sanitize_diff D =
        joinNL (processLines (pySplitlines (normalizeCR D))) := by
      show (if pyEnds (joinNL (processLines (pySplitlines (normalizeCR D)))) "\n" = true
          then joinNL (processLines (pySplitlines (normalizeCR D)))
          else joinNL (processLines (pySplitlines (normalizeCR D))) ++ "\n") = _
      rw [if_pos hE]
    rw [hs, hM, joinNL_concat M "" hMne]
    apply String.ext
    have hemp : ("" : String).data = [] := rfl
    simp [String.data_append, hemp]
  · by_cases hO : processLines (pySplitlines (normalizeCR D)) = []
    · left
      refine ⟨hO, ?_⟩
      show (if pyEnds (joinNL (processLines (pySplitlines (normalizeCR D)))) "\n" = true
          then joinNL (processLines (pySplitlines (normalizeCR D)))
          else joinNL (processLines (pySplitlines (normalizeCR D))) ++ "\n") = "\n"
      rw [hO]
      decide
    · right; left
      refine ⟨hO, by simpa using hE, ?_⟩
      show (if pyEnds (joinNL (processLines (pySplitlines (normalizeCR D)))) "\n" = true
          then joinNL (processLines (pySplitlines (normalizeCR D)))
          else joinNL (processLines (pySplitlines (normalizeCR D))) ++ "\n") = _
      rw [if_neg hE]

theorem sanitize_second (s : String) (P : List String)
    (hnorm : normalizeCR s = s) (hsplit : pySplitlines s = P)
    (hP : processLines P = P) (hE : pyEnds (joinNL P) "\n" = false)
    (hback : joinNL P ++ "\n" = s) :
    _sanitize_diff s = s := by
  show (if pyEnds (joinNL (processLines (pySplitlines (normalizeCR s)))) "\n" = true
      then joinNL (processLines (pySplitlines (normalizeCR s)))
      else joinNL (processLines (pySplitlines (normalizeCR s))) ++ "\n") = s
  rw [hnorm, hsplit, hP, if_neg (by simp [hE])]
  exact hback

def dC3c : String := "@@ -1,1 +1,1 @@\n x\n\n\n"

/-- C3 counterexample: sanitizing is NOT idempotent.  On the diff
    "@@ -1,1 +1,1 @@\n x\n\n\n" (a correct one-line hunk followed by two
    blank lines) the first pass returns "@@ -1,1 +1,1 @@\n x\n\n" and the
    second pass strips one more trailing blank line, returning
    "@@ -1,1 +1,1 @@\n x\n", because str.splitlines drops the final empty
    line and the trailing-newline repair adds back only one "\n". -/
theorem claim_C3_counterexample :
    _sanitize_diff (_sanitize_diff dC3c) ≠ _sanitize_diff dC3c := by decide

/-- C3 (amended): for every diff D whose sanitized form does not end in a
    blank line ("\n\n"), sanitize(sanitize(D)) = sanitize(D); moreover in
    sanitize(D) every @@ header that the hunk regex matches declares
    exactly the recounted body sizes (origCount / newCount over the lines
    up to the next header), and every line of sanitize(D) is either a line
    of D copied unchanged or a header with the original start numbers and
    trailing hint text preserved (with at most one trailing blank line of
    D absorbed).  Idempotence fails without the proviso. -/
theorem claim_C3_sanitize (D : String) :
    (pyEnds (_sanitize_diff D) "\n\n" = false →
      _sanitize_diff (_sanitize_diff D) = _sanitize_diff D) ∧
    hunkCountsOKB (pySplitlines (_sanitize_diff D)) = true ∧
    hdrsPreserved (pySplitlines (normalizeCR D))
      (pySplitlines (_sanitize_diff D)) = true := by
  rcases sanitize_diff_cases D with ⟨hO, hs⟩ | ⟨hOne, hE, hs⟩ | ⟨M, hM, hMne, hs⟩
  · have hL : pySplitlines (normalizeCR D) = [] := processLines_eq_nil _ hO
    refine ⟨fun _ => ?_, ?_, ?_⟩
    · rw [hs]
      decide
    · rw [hs]
      decide
    · rw [hs, hL]
      decide
  · have hclean := processLines_clean (pySplitlines (normalizeCR D))
      (clean_pySplitlines _)
    have hsplit : pySplitlines (_sanitize_diff D) =
        processLines (pySplitlines (normalizeCR D)) := by
      rw [hs]
      exact pySplitlines_joinNL _ hOne hclean
    refine ⟨fun _ => ?_, ?_, ?_⟩
    · exact sanitize_second (_sanitize_diff D) _
        (by rw [hs]; exact normalizeCR_id _ (joinNL_noCR _ hclean))
        hsplit (processLines_idem _) hE hs.symm
    · rw [hsplit]
      exact hunkCountsOKB_processLines _
    · rw [hsplit]
      unfold hdrsPreserved
      rw [processLines_length]
      simp [processLines_pres]
  · have hclean := processLines_clean (pySplitlines (normalizeCR D))
      (clean_pySplitlines _)
    have hcleanM : ∀ l ∈ M, cleanLine l := fun l hl =>
      hclean l (by rw [hM]; exact List.mem_append.mpr (Or.inl hl))
    have hsplit : pySplitlines (_sanitize_diff D) = M := by
      rw [hs]
      exact pySplitlines_joinNL M hMne hcleanM
    have hPM : processLines M = M := by
      have h1 := processLines_idem (pySplitlines (normalizeCR D))
      rw [hM, processLines_append_nilstr] at h1
      exact List.append_cancel_right h1
    refine ⟨fun hp => ?_, ?_, ?_⟩
    · have hE2 : pyEnds (joinNL M) "\n" = false := by
        rw [hs] at hp
        have hnn : ("\n\n" : String) = "\n" ++ "\n" := rfl
        rw [hnn, pyEnds_snoc_NL] at hp
        exact hp
      exact sanitize_second (_sanitize_diff D) M
        (by rw [hs]; exact normalizeCR_id _ (joinNL_noCR M hcleanM))
        hsplit hPM hE2 hs.symm
    · rw [hsplit]
      apply hunkCountsOKB_drop_nilstr
      rw [← hM]
      exact hunkCountsOKB_processLines _
    · rw [hsplit]
      unfold hdrsPreserved
      have hlen : M.length + 1 = (pySplitlines (normalizeCR D)).length := by
        have h2 := processLines_length (pySplitlines (normalizeCR D))
        rw [hM] at h2
        simp at h2
        omega
      have hzip : (List.zipWith hdrPresB (pySplitlines (normalizeCR D)) M).all
          id = true := by
        apply zipWith_all_front hdrPresB _ M ""
        rw [← hM]
        exact processLines_pres _
      simp [hlen, hzip]

def dC3w : String := "@@ -1,5 +2,9 @@ hint\n x\n-y\n+z\n"

/-- C3 witness: on the concrete diff "@@ -1,5 +2,9 @@ hint\n x\n-y\n+z\n"
    (wrong declared counts 5/9, real counts 2/2) the proviso holds,
    sanitizing is idempotent there, the sanitized header declares the
    recounted sizes, and starts/hint are preserved. -/
theorem claim_C3_witness :
    pyEnds (_sanitize_diff dC3w) "\n\n" = false ∧
    _sanitize_diff (_sanitize_diff dC3w) = _sanitize_diff dC3w ∧
    hunkCountsOKB (pySplitlines (_sanitize_diff dC3w)) = true ∧
    hdrsPreserved (pySplitlines (normalizeCR dC3w))
      (pySplitlines (_sanitize_diff dC3w)) = true :=
  ⟨by decide, (claim_C3_sanitize dC3w).1 (by decide),
    (claim_C3_sanitize dC3w).2.1, (claim_C3_sanitize dC3w).2.2⟩

/-! ## C4: the extractor result as a suffix of the repaired text -/

theorem splitKeep_flatten_go : ∀ (n : Nat) (cs acc : List Char), cs.length ≤ n →
    (splitlinesCore true cs acc).flatten = acc.reverse ++ cs := by
  intro n
  induction n with
  | zero =>
    intro cs acc hlen
    have hcs : cs = [] := List.eq_nil_of_length_eq_zero (Nat.le_zero.mp hlen)
    subst hcs
    simp only [splitlinesCore]
    split
    · rename_i ha
      subst ha
      simp
    · simp
  | succ n ih =>
    intro cs acc hlen
    cases cs with
    | nil =>
      simp only [splitlinesCore]
      split
      · rename_i ha
        subst ha
        simp
      · simp
    | cons a tail =>
      cases tail with
      | nil =>
        simp only [splitlinesCore]
        by_cases h1 : isCR a = true
        · simp only [h1, if_true]
          simp
        · simp only [h1, Bool.false_eq_true, if_false]
          by_cases h2 : isBoundaryChar a = true
          · simp only [h2, if_true]
            simp
          · simp only [h2, Bool.false_eq_true, if_false]
            rw [if_neg (List.cons_ne_nil a acc)]
            simp
      | cons d cs2 =>
        simp only [splitlinesCore]
        by_cases h1 : isCR a = true
        · simp only [h1, if_true]
          by_cases h2 : d = '\n'
          · simp only [h2, if_true]
            rw [List.flatten_cons, ih cs2 [] (by simp at hlen ⊢; omega)]
            subst h2
            simp
          · simp only [h2, Bool.false_eq_true, if_false]
            rw [List.flatten_cons, ih (d :: cs2) [] (by simp at hlen ⊢; omega)]
            simp
        · simp only [h1, Bool.false_eq_true, if_false]
          by_cases h2 : isBoundaryChar a = true
          · simp only [h2, if_true]
            rw [List.flatten_cons, ih (d :: cs2) [] (by simp at hlen ⊢; omega)]
            simp
          · simp only [h2, Bool.false_eq_true, if_false]
            rw [ih (d :: cs2) (a :: acc) (by simp at hlen ⊢; omega)]
            simp

theorem joinAll_splitKeep (s : String) : joinAll (pySplitlinesKeep s) = s := by
  apply String.ext
  show (((splitlinesCore true s.data []).map String.mk).map String.data).flatten
      = s.data
  rw [List.map_map]
  have hcomp : (String.data ∘ String.mk) = id := funext (fun l => rfl)
  rw [hcomp, List.map_id]
  rw [splitKeep_flatten_go s.data.length s.data [] (le_refl _)]
  simp

theorem joinAll_append (a b : List String) :
    joinAll (a ++ b) = joinAll a ++ joinAll b := by
  apply String.ext
  show ((a ++ b).map String.data).flatten =
    (String.mk (a.map String.data).flatten ++
      String.mk (b.map String.data).flatten).data
  rw [String.data_append]
  show ((a ++ b).map String.data).flatten =
    (a.map String.data).flatten ++ (b.map String.data).flatten
  rw [List.map_append, List.flatten_append]

/-- Step 1 and step 2 of _extract_diff composed: the repaired and
    fence-stripped text that step 3 scans. -/
def extractFixed (text : String) : String :=
  stripOuterFence (joinAll ((withNext (pySplitlinesKeep text)).map repairLine))

/-- An adjacent `--- `/`+++ ` header pair at line index i. -/
def pairAt (ls : List String) (i : Nat) : Bool :=
  (isSrcHdrLine (ls.getD i "") && isDstHdrLine (ls.getD (i + 1) "")) &&
    decide (i + 1 < ls.length)

theorem pairAt_cons_succ (l : String) (t : List String) (i : Nat) :
    pairAt (l :: t) (i + 1) = pairAt t i := by
  unfold pairAt
  rw [List.getD_cons_succ, List.getD_cons_succ]
  have h1 : decide (i + 1 + 1 < (l :: t).length) = decide (i + 1 < t.length) := by
    rw [decide_eq_decide]
    simp only [List.length_cons]
    omega
  rw [h1]

theorem pairAt_two_zero (l next : String) (rest : List String) :
    pairAt (l :: next :: rest) 0 =
      (isSrcHdrLine l && isDstHdrLine next) := by
  unfold pairAt
  rw [List.getD_cons_zero, List.getD_cons_succ, List.getD_cons_zero]
  have h1 : decide (0 + 1 < (l :: next :: rest).length) = true := by
    rw [decide_eq_true_eq]
    simp
  rw [h1, Bool.and_true]

theorem findPairTail_some_spec : ∀ (ls tail : List String),
    findPairTail ls = some tail →
    ∃ k, pairAt ls k = true ∧ tail = ls.drop k ∧
      ∀ i < k, pairAt ls i = false := by
  intro ls
  induction ls with
  | nil =>
    intro tail h
    simp [findPairTail] at h
  | cons l ls2 ih =>
    cases ls2 with
    | nil =>
      intro tail h
      simp [findPairTail] at h
    | cons next rest =>
      intro tail h
      simp only [findPairTail] at h
      by_cases hc : (isSrcHdrLine l && isDstHdrLine next) = true
      · rw [if_pos hc] at h
        refine ⟨0, ?_, ?_, fun i hi => absurd hi (Nat.not_lt_zero i)⟩
        · rw [pairAt_two_zero]
          exact hc
        · rw [List.drop_zero]
          exact (Option.some_inj.mp h).symm
      · rw [if_neg hc] at h
        obtain ⟨k, hk, htail, hmin⟩ := ih tail h
        refine ⟨k + 1, ?_, ?_, ?_⟩
        · rw [pairAt_cons_succ]
          exact hk
        · rw [List.drop_succ_cons]
          exact htail
        · intro i hi
          cases i with
          | zero =>
            rw [pairAt_two_zero]
            exact Bool.not_eq_true _ ▸ Bool.eq_false_iff.mpr hc
          | succ j =>
            rw [pairAt_cons_succ]
            exact hmin j (by omega)

theorem findPairTail_none_iff : ∀ ls : List String,
    findPairTail ls = none ↔ ∀ i, pairAt ls i = false := by
  intro ls
  induction ls with
  | nil =>
    constructor
    · intro _ i
      unfold pairAt
      have h1 : decide (i + 1 < ([] : List String).length) = false := by
        rw [decide_eq_false_iff_not]
        simp
      rw [h1, Bool.and_false]
    · intro _
      rfl
  | cons l ls2 ih =>
    cases ls2 with
    | nil =>
      constructor
      · intro _ i
        unfold pairAt
        have h1 : decide (i + 1 < ([l] : List String).length) = false := by
          rw [decide_eq_false_iff_not]
          simp
        rw [h1, Bool.and_false]
      · intro _
        rfl
    | cons next rest =>
      constructor
      · intro h i
        simp only [findPairTail] at h
        by_cases hc : (isSrcHdrLine l && isDstHdrLine next) = true
        · rw [if_pos hc] at h
          simp at h
        · rw [if_neg hc] at h
          cases i with
          | zero =>
            rw [pairAt_two_zero]
            exact Bool.eq_false_iff.mpr hc
          | succ j =>
            rw [pairAt_cons_succ]
            exact (ih.mp h) j
      · intro hall
        simp only [findPairTail]
        by_cases hc : (isSrcHdrLine l && isDstHdrLine next) = true
        · exfalso
          have h0 := hall 0
          rw [pairAt_two_zero, hc] at h0
          simp at h0
        · rw [if_neg hc]
          exact ih.mpr (fun i => by
            rw [← pairAt_cons_succ l (next :: rest) i]
            exact hall (i + 1))

def tC4 : String := "- a/q\n+++ b/q\n"

/-- C4 counterexample: on input "- a/q\n+++ b/q\n" no adjacent
    `--- `/`+++ ` header pair exists anywhere in the text (the first line
    has a single dash), yet the extractor does not fail: the step-1 repair
    invents "--- a/q" and the extractor returns
    "--- a/q\n+++ b/q\n", which is not even a substring of the input -
    so neither the failure condition nor byte-identity with the input
    holds as stated. -/
theorem claim_C4_counterexample :
    _extract_diff tC4 = some "--- a/q\n+++ b/q\n" ∧
    (∀ i, i < (pySplitlinesKeep tC4).length →
      (isSrcHdrLine ((pySplitlinesKeep tC4).getD i "") &&
        isDstHdrLine ((pySplitlinesKeep tC4).getD (i + 1) "")) = false) ∧
    isInfixB ("--- a/q\n+++ b/q\n" : String).data tC4.data = false := by decide

/-- C4 (amended): step 3 of the extractor is exact over the repaired,
    fence-stripped text `extractFixed text`: when it returns a diff r,
    r is a byte-identical suffix of `extractFixed text` starting at the
    first adjacent header-pair line (no earlier line pair qualifies), and
    it returns None exactly when no adjacent `--- `/`+++ ` pair occurs in
    `extractFixed text`.  Relative to the ORIGINAL input the claim fails:
    the one-dash repair can invent header pairs, so extraction can succeed
    on input with no adjacent pair and return text that is not a substring
    of the input. -/
theorem claim_C4_extract (text : String) :
    (∀ r, _extract_diff text = some r →
      (∃ pre, extractFixed text = pre ++ r) ∧
      (∃ k, pairAt (pySplitlinesKeep (extractFixed text)) k = true ∧
        r = joinAll ((pySplitlinesKeep (extractFixed text)).drop k) ∧
        ∀ i < k, pairAt (pySplitlinesKeep (extractFixed text)) i = false)) ∧
    (_extract_diff text = none ↔
      ∀ i, pairAt (pySplitlinesKeep (extractFixed text)) i = false) := by
  have heq : _extract_diff text =
      (findPairTail (pySplitlinesKeep (extractFixed text))).map joinAll := rfl
  constructor
  · intro r hr
    rw [heq] at hr
    cases hft : findPairTail (pySplitlinesKeep (extractFixed text)) with
    | none =>
      rw [hft] at hr
      simp at hr
    | some tail =>
      rw [hft] at hr
      have hr2 : some (joinAll tail) = some r := hr
      obtain ⟨k, hk, htail, hmin⟩ := findPairTail_some_spec _ tail hft
      constructor
      · refine ⟨joinAll ((pySplitlinesKeep (extractFixed text)).take k), ?_⟩
        rw [← Option.some_inj.mp hr2, htail, ← joinAll_append,
          List.take_append_drop, joinAll_splitKeep]
      · refine ⟨k, hk, ?_, hmin⟩
        rw [← Option.some_inj.mp hr2, htail]
  · rw [heq]
    cases hft : findPairTail (pySplitlinesKeep (extractFixed text)) with
    | none =>
      constructor
      · intro _
        exact (findPairTail_none_iff _).mp hft
      · intro _
        rfl
    | some tail =>
      apply iff_of_false
      · intro hmap
        exact Option.noConfusion hmap
      · intro hall
        obtain ⟨k, hk, _, _⟩ := findPairTail_some_spec _ tail hft
        rw [hall k] at hk
        exact Bool.false_ne_true hk

def tC4w : String := "noise\n--- a/f.txt\n+++ b/f.txt\n@@ -1,1 +1,1 @@\n-x\n+y\n"

/-- C4 witness: on prose followed by a valid diff the extractor returns
    the byte-identical suffix from the first header pair onward. -/
theorem claim_C4_witness :
    (∃ pre, extractFixed tC4w = pre ++
      "--- a/f.txt\n+++ b/f.txt\n@@ -1,1 +1,1 @@\n-x\n+y\n") ∧
    (∃ k, pairAt (pySplitlinesKeep (extractFixed tC4w)) k = true ∧
      "--- a/f.txt\n+++ b/f.txt\n@@ -1,1 +1,1 @@\n-x\n+y\n" =
        joinAll ((pySplitlinesKeep (extractFixed tC4w)).drop k) ∧
      ∀ i < k, pairAt (pySplitlinesKeep (extractFixed tC4w)) i = false) :=
  (claim_C4_extract tC4w).1
    "--- a/f.txt\n+++ b/f.txt\n@@ -1,1 +1,1 @@\n-x\n+y\n" (by decide)

end ZeroToken
